import Mathlib

/-!
# TGA codec and per-pixel compositing operators

A shallow embedding of `src/main.cpp`: the 18-byte-header TGA reader and writer
and the compositing operators (`multiply`, `subtract`, `screen`, `overlay`,
`adjustGreen`, `scaleRedBlue`, `writeChannel`, `combineChannels`, `rotate180`),
followed by theorems about them.

Conventions of the embedding:

* `unsigned char` is `Fin 256`; `int` is `Int`, and every `int` operation that
  can leave the 32-bit range is wrapped with `toInt32` (two's complement, what
  the usual compilers produce for the overflow the language leaves undefined).
* `float` is IEEE-754 binary32, every operation rounded on its own to nearest,
  ties to even (no extended intermediate precision, no fused multiply-add); a
  finite `float` is represented by the rational number it denotes (`F32.round`).
* a file is the list of its bytes; `std::ifstream` is the small state machine
  `IStream` (contents, read position, fail bit); the machine is little-endian.
* `std::vector<Pixel>` is `List Pixel`; an indexed store is `List.set`, an
  indexed load is `List.getD`. Indexing outside the vector, undefined in the
  source, stores nothing and loads `default`; it does not occur for images that
  satisfy `Image.WF` and have equal dimensions.
-/

namespace Tga

/-- An `unsigned char`. -/
abbrev Byte := Fin 256

/-- The `Pixel` struct: three 8-bit channels. -/
structure Pixel where
  r : Byte
  g : Byte
  b : Byte
deriving DecidableEq, Repr

instance : Inhabited Pixel := ⟨⟨0, 0, 0⟩⟩

/-- The `Image` struct: `int width`, `int height` and the pixel vector. -/
structure Image where
  width : Int := 0
  height : Int := 0
  pixels : List Pixel := []
deriving DecidableEq, Repr

/-- The data-model invariant: the pixel vector holds `width * height` pixels. -/
def Image.WF (img : Image) : Prop :=
  (img.pixels.length : Int) = img.width * img.height

instance (img : Image) : Decidable img.WF := by
  unfold Image.WF
  infer_instance

/-- Reduction of a mathematical integer to the 32-bit two's-complement `int`. -/
def toInt32 (x : Int) : Int :=
  (x + 2147483648) % 4294967296 - 2147483648

/-- Conversion `static_cast<unsigned char>(int)`: reduction modulo 256. -/
def toUChar (x : Int) : Byte :=
  Fin.ofNat (x % 256).toNat

/-- Source `clamp`: saturate an `int` to `[0,255]`. -/
def clamp (value : Int) : Byte :=
  toUChar (if value > 255 then 255 else if value < 0 then 0 else value)

/-! ## binary32 arithmetic -/

/-- Nearest integer, ties to the even one. -/
def roundHalfEven (q : ℚ) : Int :=
  let f := ⌊q⌋
  let r := q - f
  if r < 1 / 2 then f else if 1 / 2 < r then f + 1 else if f % 2 = 0 then f else f + 1

/-- Rounding of a rational to the nearest binary32 value (24-bit significand,
minimum exponent -126, gradual underflow), ties to even. Magnitudes of `2^128`
and more, which binary32 turns into infinities, are outside this model; the
operators below never leave `[-2, 512]`. -/
def F32.round (x : ℚ) : ℚ :=
  if x = 0 then 0 else
    let e := max (Int.log 2 |x|) (-126)
    let ulp : ℚ := 2 ^ (e - 23)
    roundHalfEven (x / ulp) * ulp

/-- The binary32 product. -/
def F32.mul (x y : ℚ) : ℚ := F32.round (x * y)

/-- The binary32 quotient. -/
def F32.div (x y : ℚ) : ℚ := F32.round (x / y)

/-- The binary32 difference. -/
def F32.sub (x y : ℚ) : ℚ := F32.round (x - y)

/-- The C library `lroundf`: nearest integer, ties away from zero. -/
def lroundf (x : ℚ) : Int :=
  if 0 ≤ x then ⌊x + 1 / 2⌋ else -⌊-x + 1 / 2⌋

/-- Source `normalize`: `static_cast<float>(value) / 255.0f`. -/
def normalize (value : Byte) : ℚ :=
  F32.div (value.val : ℚ) 255

/-- Source `denormalize`: `clamp(static_cast<int>(lroundf(value * 255.0f)))`. -/
def denormalize (value : ℚ) : Byte :=
  clamp (toInt32 (lroundf (F32.mul value 255)))

/-! ## Codec -/

/-- The state of a `std::ifstream` opened on a file: the file's bytes, the read
position and the fail bit. -/
structure IStream where
  data : List Byte
  pos : Nat
  fail : Bool

/-- Member `seekg(p)`: moves the read position unless the stream has failed. -/
def IStream.seekg (s : IStream) (p : Nat) : IStream :=
  if s.fail then s else { s with pos := p }

/-- Member `read(buf, n)`: the bytes stored into the buffer and the new stream.
A failed stream stores nothing; fewer than `n` available bytes are stored and
set the fail bit. -/
def IStream.read (s : IStream) (n : Nat) : List Byte × IStream :=
  if s.fail then ([], s)
  else
    let got := (s.data.drop s.pos).take n
    (got, { s with pos := s.pos + got.length, fail := decide (got.length < n) })

/-- The value of a zero-initialised `int` after `bytes` (at most four of them)
were stored at its address on a little-endian machine. -/
def leValue (bytes : List Byte) : Int :=
  bytes.foldr (fun b acc => (b.val : Int) + 256 * acc) 0

/-- The pixel loop of `readTGA`: `n` pixels, each read as three one-byte reads
(blue, green, red) into a zero-initialised `Pixel`. -/
def readPixels : Nat → IStream → List Pixel
  | 0, _ => []
  | n + 1, s =>
    let rb := s.read 1
    let rg := rb.2.read 1
    let rr := rg.2.read 1
    { r := rr.1.headD 0, g := rg.1.headD 0, b := rb.1.headD 0 } :: readPixels n rr.2

/-- The ways `readTGA` ends without returning an image. -/
inductive ReadError where
  /-- The exception `std::length_error` of `vector::resize`, never caught. -/
  | lengthError
deriving DecidableEq, Repr

/-- Source `readTGA`, on the bytes of a file that could be opened. The `int`
product `width * height` is converted to `size_t` by `resize`; a negative
product becomes a size above `max_size()` and `resize` throws. Memory for a
non-negative count is taken to be available. -/
def readTGA (file : List Byte) : Except ReadError Image :=
  let s0 : IStream := { data := file, pos := 0, fail := false }
  let rw := (s0.seekg 12).read 2
  let rh := rw.2.read 2
  let width := leValue rw.1
  let height := leValue rh.1
  let count := toInt32 (width * height)
  if count < 0 then Except.error ReadError.lengthError
  else
    Except.ok
      { width := width, height := height,
        pixels := readPixels count.toNat (rh.2.seekg 18) }

/-- Source `writeTGA`: the bytes written to a file that could be opened. -/
def writeTGA (img : Image) : List Byte :=
  let header : List Byte :=
    List.replicate 12 (0 : Byte) ++
      [toUChar (Int.land img.width 0xFF), toUChar (Int.land (Int.shiftRight img.width 8) 0xFF),
       toUChar (Int.land img.height 0xFF), toUChar (Int.land (Int.shiftRight img.height 8) 0xFF),
       toUChar 24, 0]
  header ++ img.pixels.flatMap (fun p => [p.b, p.g, p.r])

/-! ## Compositor -/

/-- The loop `for (int i = 0; i < n; ++i) pixels[i] = f i` over a pixel vector. -/
def forIndex (n : Int) (f : Nat → Pixel) (pixels : List Pixel) : List Pixel :=
  (List.range n.toNat).foldl (fun acc i => acc.set i (f i)) pixels

/-- The loop bound `img.width * img.height`, an `int` product. -/
def Image.total (img : Image) : Int :=
  toInt32 (img.width * img.height)

/-- The per-channel expression of `multiply`:
`denormalize(normalize(a) * normalize(b))`. -/
def multiplyChannel (a b : Byte) : Byte :=
  denormalize (F32.mul (normalize a) (normalize b))

/-- Source `multiply`. -/
def multiply (img1 img2 : Image) : Image :=
  { img1 with
    pixels := forIndex img1.total (fun i =>
      let p1 := img1.pixels.getD i default
      let p2 := img2.pixels.getD i default
      { r := multiplyChannel p1.r p2.r,
        g := multiplyChannel p1.g p2.g,
        b := multiplyChannel p1.b p2.b }) img1.pixels }

/-- The per-channel expression of `subtract`:
`clamp(static_cast<int>(a) - static_cast<int>(b))`. -/
def subtractChannel (a b : Byte) : Byte :=
  clamp ((a.val : Int) - (b.val : Int))

/-- Source `subtract`. -/
def subtract (img1 img2 : Image) : Image :=
  { img1 with
    pixels := forIndex img1.total (fun i =>
      let p1 := img1.pixels.getD i default
      let p2 := img2.pixels.getD i default
      { r := subtractChannel p1.r p2.r,
        g := subtractChannel p1.g p2.g,
        b := subtractChannel p1.b p2.b }) img1.pixels }

/-- The per-channel expression of `screen`:
`denormalize(1 - (1 - normalize(a)) * (1 - normalize(b)))`. -/
def screenChannel (a b : Byte) : Byte :=
  denormalize (F32.sub 1 (F32.mul (F32.sub 1 (normalize a)) (F32.sub 1 (normalize b))))

/-- Source `screen`. -/
def screen (img1 img2 : Image) : Image :=
  { img1 with
    pixels := forIndex img1.total (fun i =>
      let p1 := img1.pixels.getD i default
      let p2 := img2.pixels.getD i default
      { r := screenChannel p1.r p2.r,
        g := screenChannel p1.g p2.g,
        b := screenChannel p1.b p2.b }) img1.pixels }

/-- The per-channel expression of `overlay`, a conditional on the raw byte of
the second image. -/
def overlayChannel (a b : Byte) : Byte :=
  if b.val ≤ 128 then
    denormalize (F32.mul (F32.mul 2 (normalize a)) (normalize b))
  else
    denormalize
      (F32.sub 1 (F32.mul (F32.mul 2 (F32.sub 1 (normalize a))) (F32.sub 1 (normalize b))))

/-- Source `overlay`. -/
def overlay (img1 img2 : Image) : Image :=
  { img1 with
    pixels := forIndex img1.total (fun i =>
      let p1 := img1.pixels.getD i default
      let p2 := img2.pixels.getD i default
      { r := overlayChannel p1.r p2.r,
        g := overlayChannel p1.g p2.g,
        b := overlayChannel p1.b p2.b }) img1.pixels }

/-- Source `rotate180`. -/
def rotate180 (img : Image) : Image :=
  let totalPixels := img.total
  { img with
    pixels := forIndex totalPixels (fun i =>
      img.pixels.getD (toInt32 (toInt32 (totalPixels - i) - 1)).toNat default) img.pixels }

/-- Source `combineChannels`. -/
def combineChannels (red green blue : Image) : Image :=
  { red with
    pixels := forIndex red.total (fun i =>
      { r := (red.pixels.getD i default).r,
        g := (green.pixels.getD i default).g,
        b := (blue.pixels.getD i default).b }) red.pixels }

/-- Source `adjustGreen`: the image left in the caller's variable (the argument
is taken by reference and modified) and the returned copy. -/
def adjustGreen (img : Image) (value : Int) : Image × Image :=
  let img1 : Image :=
    { img with
      pixels := img.pixels.map (fun pixel =>
        { pixel with g := clamp (toInt32 ((pixel.g.val : Int) + value)) }) }
  (img1, img1)

/-- Source `scaleRedBlue`: the image left in the caller's variable and the
returned copy. -/
def scaleRedBlue (img : Image) (redScale blueScale : Int) : Image × Image :=
  let img1 : Image :=
    { img with
      pixels := img.pixels.map (fun pixel =>
        { pixel with
          r := clamp (toInt32 ((pixel.r.val : Int) * redScale)),
          b := clamp (toInt32 ((pixel.b.val : Int) * blueScale)) }) }
  (img1, img1)

/-- The local image `result` that `writeChannel` hands to `writeTGA`. -/
def channelImage (img : Image) (channel : Char) : Image :=
  { img with
    pixels := img.pixels.map (fun pixel =>
      if channel = 'r' then { r := pixel.r, g := pixel.r, b := pixel.r }
      else if channel = 'g' then { r := pixel.g, g := pixel.g, b := pixel.g }
      else if channel = 'b' then { r := pixel.b, g := pixel.b, b := pixel.b }
      else pixel) }

/-- Source `writeChannel`: the bytes written to the file. -/
def writeChannel (img : Image) (channel : Char) : List Byte :=
  writeTGA (channelImage img channel)

/-! ## Specification-side notions -/

/-- The little-endian 16-bit number at offsets 12 and 13 of a file. -/
def fileWidth (file : List Byte) : Int :=
  ((file.getD 12 0).val : Int) + 256 * ((file.getD 13 0).val : Int)

/-- The little-endian 16-bit number at offsets 14 and 15 of a file. -/
def fileHeight (file : List Byte) : Int :=
  ((file.getD 14 0).val : Int) + 256 * ((file.getD 15 0).val : Int)

/-- The pixel stored at offsets `18+3i .. 18+3i+2` of a file, in blue, green,
red order; a byte beyond the end of the file counts as 0. -/
def filePixel (file : List Byte) (i : Nat) : Pixel :=
  { r := file.getD (18 + 3 * i + 2) 0, g := file.getD (18 + 3 * i + 1) 0,
    b := file.getD (18 + 3 * i) 0 }

/-- The byte the stream would deliver `k` positions after its read position:
0 when the stream has failed or the position is beyond the end. -/
def IStream.peek (s : IStream) (k : Nat) : Byte :=
  if s.fail then 0 else s.data.getD (s.pos + k) 0

/-- The nearest integer to an exact rational, ties away from zero, saturated to
`[0,255]`: the value a channel formula denotes in exact arithmetic. -/
def roundClamp (q : ℚ) : Byte :=
  clamp (lroundf q)

/-! ## Concrete inputs -/

/-- A 2×1 image. -/
def smallImage : Image :=
  { width := 2, height := 1, pixels := [⟨200, 100, 50⟩, ⟨10, 20, 30⟩] }

/-- A 65535×65535 image, all black: 4294836225 pixels. -/
def bigImage : Image :=
  { width := 65535, height := 65535, pixels := List.replicate 4294836225 ⟨0, 0, 0⟩ }

/-- The header of a file announcing width 65535 and height 65535. -/
def bigHeader : List Byte :=
  [0, 0, 0, 0, 0, 0, 0, 0, 0, 0, 0, 0, 255, 255, 255, 255, 24, 0]

/-- A complete file of 65535×65535 black pixels: the header and 12884508675
pixel bytes. -/
def bigFile : List Byte :=
  bigHeader ++ List.replicate 12884508675 0

/-- A small complete file: a 2×1 image followed by one stray byte. -/
def smallFile : List Byte :=
  [1, 2, 3, 4, 5, 6, 7, 8, 9, 10, 11, 12, 2, 0, 1, 0, 24, 32, 50, 100, 200, 30, 20, 10, 77]

/-- A 2×1 image, the second operand of the multiply scenario. -/
def smallImageB : Image :=
  { width := 2, height := 1, pixels := [⟨255, 0, 128⟩, ⟨0, 255, 0⟩] }

/-- Channel-wise combination of two pixels. -/
def Pixel.map2 (f : Byte → Byte → Byte) (a b : Pixel) : Pixel :=
  { r := f a.r b.r, g := f a.g b.g, b := f a.b b.b }

/-- The 2×1 all-white image. -/
def smallWhite : Image :=
  { width := 2, height := 1, pixels := [⟨255, 255, 255⟩, ⟨255, 255, 255⟩] }

/-- The inverted pixel: every channel `v` replaced by `255 - v`. -/
def invertPixel (p : Pixel) : Pixel :=
  { r := toUChar (255 - (p.r.val : Int)), g := toUChar (255 - (p.g.val : Int)),
    b := toUChar (255 - (p.b.val : Int)) }

/-- Channel inversion `v ↦ 255 - v` of every byte of an image; the operand
transformation named by the screen/multiply duality property. -/
def invert (img : Image) : Image :=
  { img with pixels := img.pixels.map invertPixel }

/-- A 2×2 image with four different pixels. -/
def squareImage : Image :=
  { width := 2, height := 2, pixels := [⟨1, 2, 3⟩, ⟨4, 5, 6⟩, ⟨7, 8, 9⟩, ⟨10, 11, 12⟩] }

/-- Source `writeChannel` as seen by the caller: the caller's image after the
call (the argument is a `const` reference, only the local copy `result` is
modified) and the bytes written to the file. -/
def writeChannelCall (img : Image) (channel : Char) : Image × List Byte :=
  (img, writeChannel img channel)

/-- The channel of a pixel named by `'r'`, `'g'` or `'b'`. -/
def Pixel.channel (p : Pixel) (c : Char) : Byte :=
  if c = 'r' then p.r else if c = 'g' then p.g else p.b

/-- The shape of a result: the width and height of `img` and exactly
`width*height` pixels. -/
def Image.ShapeOf (result img : Image) : Prop :=
  result.width = img.width ∧ result.height = img.height ∧
    (result.pixels.length : Int) = img.width * img.height

/-- The invariant of the images a run of the program holds: the pixel vector
has `width*height` elements and this count is an `int` that has not overflowed.
Every image `readTGA` returns satisfies it (`readTGA_held`), every operator
preserves it (`operators_preserve_held`), and an image with width and height in
`[0,65535]` satisfies it exactly when some file decodes to it
(`held_iff_decoded`). -/
def Image.Held (img : Image) : Prop :=
  img.WF ∧ img.width * img.height < 2147483648

instance (img : Image) : Decidable img.Held := by
  unfold Image.Held
  infer_instance

/-- A file of three bytes: shorter than a header. -/
def stubFile : List Byte := [1, 2, 3]

/-- A file announcing a 2×1 image that ends after the first pixel byte. -/
def truncatedFile : List Byte :=
  [0, 0, 0, 0, 0, 0, 0, 0, 0, 0, 0, 0, 2, 0, 1, 0, 24, 0, 9]

/-- A canonical file of a 2×1 image. -/
def canonicalFile : List Byte :=
  [0, 0, 0, 0, 0, 0, 0, 0, 0, 0, 0, 0, 2, 0, 1, 0, 24, 0, 50, 100, 200, 30, 20, 10]

/-! ## Machine integers -/

theorem toInt32_of_range {x : Int} (h0 : 0 ≤ x) (h1 : x < 2147483648) : toInt32 x = x := by
  unfold toInt32
  omega

theorem toInt32_le_self {x : Int} (h0 : 0 ≤ x) : toInt32 x ≤ x := by
  unfold toInt32
  omega

theorem toUChar_val {x : Int} (h0 : 0 ≤ x) (h1 : x < 256) : ((toUChar x).val : Int) = x := by
  unfold toUChar Fin.ofNat
  simp only []
  omega

theorem toUChar_natCast (b : Byte) : toUChar (b.val : Int) = b := by
  apply Fin.ext
  have h := b.isLt
  have := toUChar_val (x := (b.val : Int)) (by omega) (by omega)
  omega

theorem clamp_val (v : Int) :
    ((clamp v).val : Int) = if v > 255 then 255 else if v < 0 then 0 else v := by
  unfold clamp
  split_ifs with h1 h2
  · exact toUChar_val (by norm_num) (by norm_num)
  · exact toUChar_val (by norm_num) (by norm_num)
  · exact toUChar_val (by omega) (by omega)

theorem land_255 {w : Int} (h0 : 0 ≤ w) : Int.land w 0xFF = w % 256 := by
  obtain ⟨n, rfl⟩ := Int.eq_ofNat_of_zero_le h0
  have h : n &&& (2 ^ 8 - 1) = n % 2 ^ 8 := Nat.and_pow_two_sub_one_eq_mod n 8
  have h2 : Int.land (n : Int) 0xFF = ((n &&& (2 ^ 8 - 1) : Nat) : Int) := rfl
  rw [h2, h]
  norm_num

theorem shiftRight_8 {w : Int} (h0 : 0 ≤ w) : Int.shiftRight w 8 = w / 256 := by
  obtain ⟨n, rfl⟩ := Int.eq_ofNat_of_zero_le h0
  have h2 : Int.shiftRight (n : Int) 8 = ((n >>> 8 : Nat) : Int) := rfl
  rw [h2, Nat.shiftRight_eq_div_pow]
  norm_num

/-! ## The input stream -/

theorem getD_of_length_le {l : List Byte} {k : Nat} (h : l.length ≤ k) : l.getD k 0 = 0 := by
  rw [List.getD_eq_getElem?_getD, List.getElem?_eq_none h]
  rfl

theorem take_one_drop (l : List Byte) (p : Nat) :
    (l.drop p).take 1 = if h : p < l.length then [l[p]] else [] := by
  split_ifs with h
  · rw [List.drop_eq_getElem_cons h]
    rfl
  · rw [List.drop_eq_nil_of_le (by omega)]
    rfl

theorem read_one_eq (s : IStream) :
    s.read 1 =
      if s.fail then ([], s)
      else if h : s.pos < s.data.length then
        ([s.data[s.pos]], { data := s.data, pos := s.pos + 1, fail := false })
      else ([], { data := s.data, pos := s.pos, fail := true }) := by
  unfold IStream.read
  split_ifs with hf h
  · rfl
  · simp only [take_one_drop, dif_pos h]
    rfl
  · simp only [take_one_drop, dif_neg h]
    rfl

theorem read_one_fst (s : IStream) : (s.read 1).1.headD 0 = s.peek 0 := by
  rw [read_one_eq]
  unfold IStream.peek
  split_ifs with hf h
  · rfl
  · simp [List.getD_eq_getElem?_getD, List.getElem?_eq_getElem h]
  · rw [getD_of_length_le (by omega)]
    rfl

theorem read_one_peek (s : IStream) (k : Nat) : (s.read 1).2.peek k = s.peek (k + 1) := by
  obtain ⟨data, pos, fail⟩ := s
  cases fail
  · by_cases h : pos < data.length
    · have e : pos + 1 + k = pos + (k + 1) := by omega
      simp [read_one_eq, IStream.peek, h, e]
    · have e : data.getD (pos + (k + 1)) 0 = 0 := getD_of_length_le (by omega)
      simp only [read_one_eq, IStream.peek, h, e]
      simp
  · simp [read_one_eq, IStream.peek]

theorem readPixels_eq (n : Nat) (s : IStream) :
    readPixels n s =
      (List.range n).map (fun i =>
        ({ r := s.peek (3 * i + 2), g := s.peek (3 * i + 1), b := s.peek (3 * i) } : Pixel)) := by
  induction n generalizing s with
  | zero => rfl
  | succ n ih =>
    rw [readPixels, ih, List.range_succ_eq_map, List.map_cons, List.map_map]
    simp only [read_one_fst, read_one_peek]
    congr 1

theorem leValue_read_two (l : List Byte) (p : Nat) :
    leValue ((l.drop p).take 2) =
      ((l.getD p 0).val : Int) + 256 * ((l.getD (p + 1) 0).val : Int) := by
  have h0 : l.getD p 0 = ((l.drop p)[0]?).getD 0 := by
    rw [List.getD_eq_getElem?_getD, List.getElem?_drop]; rfl
  have h1 : l.getD (p + 1) 0 = ((l.drop p)[1]?).getD 0 := by
    rw [List.getD_eq_getElem?_getD, List.getElem?_drop]
  rw [h0, h1]
  generalize l.drop p = m
  match m with
  | [] => simp [leValue]
  | [a] => simp [leValue]
  | a :: b :: t => simp [leValue]

theorem read_two_length (l : List Byte) (p : Nat) :
    ((l.drop p).take 2).length < 2 ↔ l.length < p + 2 := by
  simp only [List.length_take, List.length_drop]
  omega

/-- The complete behaviour of `readTGA` on an arbitrary file: the dimensions are
the two little-endian numbers of the header (absent bytes counting as 0), a
product of `2^31` or more ends in `std::length_error`, and otherwise the pixels
are the consecutive byte triples from offset 18 on, absent bytes counting as 0. -/
theorem readTGA_eq (file : List Byte) :
    readTGA file =
      if toInt32 (fileWidth file * fileHeight file) < 0 then
        Except.error ReadError.lengthError
      else
        Except.ok
          { width := fileWidth file, height := fileHeight file,
            pixels := (List.range (toInt32 (fileWidth file * fileHeight file)).toNat).map
              (filePixel file) } := by
  have hw : leValue (({ data := file, pos := 0, fail := false } : IStream).seekg 12 |>.read 2).1
      = fileWidth file := by
    simp only [IStream.seekg, IStream.read, Bool.false_eq_true, if_false]
    exact leValue_read_two file 12
  by_cases h14 : file.length < 14
  · -- the width read is short: the stream has failed before the height is read
    have hh : fileHeight file = 0 := by
      unfold fileHeight
      rw [getD_of_length_le (by omega), getD_of_length_le (by omega)]
      rfl
    have hh2 : leValue ((({ data := file, pos := 0, fail := false } : IStream).seekg 12
        |>.read 2).2.read 2).1 = 0 := by
      simp only [IStream.seekg, IStream.read, Bool.false_eq_true, if_false]
      rw [if_pos (by simpa using (read_two_length file 12).2 (by omega))]
      rfl
    unfold readTGA
    simp only [hw, hh2, hh, Int.mul_zero]
    rfl
  · have hfail : ((({ data := file, pos := 0, fail := false } : IStream).seekg 12
        |>.read 2).2) = { data := file, pos := 14, fail := false } := by
      simp only [IStream.seekg, IStream.read, Bool.false_eq_true, if_false]
      have hl : ((file.drop 12).take 2).length = 2 := by
        simp only [List.length_take, List.length_drop]; omega
      simp [hl]
    have hh : leValue ((({ data := file, pos := 0, fail := false } : IStream).seekg 12
        |>.read 2).2.read 2).1 = fileHeight file := by
      rw [hfail]
      simp only [IStream.read, Bool.false_eq_true, if_false]
      exact leValue_read_two file 14
    have hpeek : ∀ k, (((({ data := file, pos := 0, fail := false } : IStream).seekg 12
        |>.read 2).2.read 2).2.seekg 18).peek k = file.getD (18 + k) 0 := by
      intro k
      rw [hfail]
      by_cases h16 : file.length < 16
      · have hl : ((file.drop 14).take 2).length < 2 := (read_two_length file 14).2 (by omega)
        simp only [IStream.read, Bool.false_eq_true, if_false, IStream.seekg, IStream.peek,
          decide_eq_true hl, if_true]
        rw [getD_of_length_le (by omega)]
      · have hl : ¬ ((file.drop 14).take 2).length < 2 := by
          rw [read_two_length]; omega
        simp only [IStream.read, Bool.false_eq_true, if_false, IStream.seekg, IStream.peek,
          decide_eq_false hl]
    unfold readTGA
    simp only [hw, hh]
    split_ifs with hc
    · rfl
    · have hfp : filePixel file = fun i =>
          ({ r := file.getD (18 + (3 * i + 2)) 0, g := file.getD (18 + (3 * i + 1)) 0,
             b := file.getD (18 + 3 * i) 0 } : Pixel) := by
        funext i
        simp only [filePixel, Nat.add_assoc]
      rw [readPixels_eq, hfp]
      simp only [hpeek]

/-! ## The output file -/

theorem bgr_getElem? (l : List Pixel) (i : Nat) :
    (l.flatMap (fun p => [p.b, p.g, p.r]))[3 * i]? = (l[i]?).map (fun p => p.b) ∧
    (l.flatMap (fun p => [p.b, p.g, p.r]))[3 * i + 1]? = (l[i]?).map (fun p => p.g) ∧
    (l.flatMap (fun p => [p.b, p.g, p.r]))[3 * i + 2]? = (l[i]?).map (fun p => p.r) := by
  induction l generalizing i with
  | nil => simp
  | cons p t ih =>
    cases i with
    | zero => simp [List.flatMap_cons]
    | succ i =>
      have e0 : 3 * (i + 1) = 3 * i + 1 + 1 + 1 := by omega
      have e1 : 3 * (i + 1) + 1 = 3 * i + 1 + 1 + 1 + 1 := by omega
      have e2 : 3 * (i + 1) + 2 = 3 * i + 2 + 1 + 1 + 1 := by omega
      rw [e1, e2, e0]
      simpa [List.flatMap_cons] using ih i

theorem bgr_length (l : List Pixel) :
    (l.flatMap (fun p => [p.b, p.g, p.r])).length = 3 * l.length := by
  induction l with
  | nil => rfl
  | cons p t ih =>
    rw [List.flatMap_cons, List.length_append, ih, List.length_cons]
    simp only [List.length_cons, List.length_nil]
    omega

theorem writeTGA_length (img : Image) : (writeTGA img).length = 18 + 3 * img.pixels.length := by
  unfold writeTGA
  simp only [List.length_append, List.length_replicate, List.length_cons, List.length_nil,
    bgr_length]

theorem writeTGA_body (img : Image) (m : Nat) :
    (writeTGA img)[18 + m]? = (img.pixels.flatMap (fun p => [p.b, p.g, p.r]))[m]? := by
  unfold writeTGA
  rw [List.getElem?_append_right (by simp)]
  congr 1
  simp

theorem writeTGA_header (img : Image) (k : Nat) (hk : k < 18) :
    (writeTGA img)[k]? =
      ([0, 0, 0, 0, 0, 0, 0, 0, 0, 0, 0, 0,
        toUChar (Int.land img.width 0xFF), toUChar (Int.land (Int.shiftRight img.width 8) 0xFF),
        toUChar (Int.land img.height 0xFF), toUChar (Int.land (Int.shiftRight img.height 8) 0xFF),
        toUChar 24, 0] : List Byte)[k]? := by
  unfold writeTGA
  rw [List.getElem?_append_left (by simpa using hk)]
  rfl

theorem lowByte_val {w : Int} (h0 : 0 ≤ w) :
    ((toUChar (Int.land w 0xFF)).val : Int) = w % 256 := by
  rw [land_255 h0]
  exact toUChar_val (by omega) (by omega)

theorem highByte_val {w : Int} (h0 : 0 ≤ w) (h1 : w ≤ 65535) :
    ((toUChar (Int.land (Int.shiftRight w 8) 0xFF)).val : Int) = w / 256 := by
  rw [shiftRight_8 h0, land_255 (by omega)]
  rw [toUChar_val (by omega) (by omega)]
  omega

theorem writeTGA_fileWidth (img : Image) (h0 : 0 ≤ img.width) (h1 : img.width ≤ 65535) :
    fileWidth (writeTGA img) = img.width := by
  unfold fileWidth
  rw [List.getD_eq_getElem?_getD, List.getD_eq_getElem?_getD,
    writeTGA_header img 12 (by norm_num), writeTGA_header img 13 (by norm_num)]
  simp only [List.getElem?_cons_succ, List.getElem?_cons_zero, Option.getD_some]
  rw [lowByte_val h0, highByte_val h0 h1]
  omega

theorem writeTGA_fileHeight (img : Image) (h0 : 0 ≤ img.height) (h1 : img.height ≤ 65535) :
    fileHeight (writeTGA img) = img.height := by
  unfold fileHeight
  rw [List.getD_eq_getElem?_getD, List.getD_eq_getElem?_getD,
    writeTGA_header img 14 (by norm_num), writeTGA_header img 15 (by norm_num)]
  simp only [List.getElem?_cons_succ, List.getElem?_cons_zero, Option.getD_some]
  rw [lowByte_val h0, highByte_val h0 h1]
  omega

theorem writeTGA_filePixel (img : Image) (i : Nat) (p : Pixel) (hp : img.pixels[i]? = some p) :
    filePixel (writeTGA img) i = p := by
  unfold filePixel
  have h := bgr_getElem? img.pixels i
  rw [hp] at h
  simp only [List.getD_eq_getElem?_getD, Nat.add_assoc, writeTGA_body, h.1, h.2.1, h.2.2]
  rfl

/-! ## Codec theorems -/

theorem byte_val_nonneg_lt (b : Byte) : 0 ≤ (b.val : Int) ∧ (b.val : Int) < 256 := by
  have := b.isLt
  omega

theorem fileWidth_range (file : List Byte) : 0 ≤ fileWidth file ∧ fileWidth file ≤ 65535 := by
  unfold fileWidth
  have h1 := byte_val_nonneg_lt (file.getD 12 0)
  have h2 := byte_val_nonneg_lt (file.getD 13 0)
  omega

theorem fileHeight_range (file : List Byte) : 0 ≤ fileHeight file ∧ fileHeight file ≤ 65535 := by
  unfold fileHeight
  have h1 := byte_val_nonneg_lt (file.getD 14 0)
  have h2 := byte_val_nonneg_lt (file.getD 15 0)
  omega

theorem readTGA_of_small (file : List Byte)
    (hcount : fileWidth file * fileHeight file < 2147483648) :
    readTGA file =
      Except.ok
        { width := fileWidth file, height := fileHeight file,
          pixels := (List.range (fileWidth file * fileHeight file).toNat).map (filePixel file) } := by
  have hn : 0 ≤ fileWidth file * fileHeight file :=
    Int.mul_nonneg (fileWidth_range file).1 (fileHeight_range file).1
  rw [readTGA_eq, toInt32_of_range hn hcount, if_neg (by omega)]

theorem readTGA_of_big (file : List Byte)
    (hcount : 2147483648 ≤ fileWidth file * fileHeight file) :
    readTGA file = Except.error ReadError.lengthError := by
  have hlt : fileWidth file * fileHeight file ≤ 65535 * 65535 :=
    Int.mul_le_mul (fileWidth_range file).2 (fileHeight_range file).2
      (fileHeight_range file).1 (by norm_num)
  rw [readTGA_eq, if_pos]
  unfold toInt32
  omega

theorem getD_congr {l l' : List Byte} {k : Nat} (h : l'[k]? = l[k]?) : l'.getD k 0 = l.getD k 0 := by
  rw [List.getD_eq_getElem?_getD, List.getD_eq_getElem?_getD, h]

theorem getElem?_eq_some_getD {l : List Byte} {k : Nat} (h : k < l.length) :
    l[k]? = some (l.getD k 0) := by
  rw [List.getD_eq_getElem?_getD, List.getElem?_eq_getElem h]
  rfl

theorem fileWidth_append (hdr rest : List Byte) (h : 16 ≤ hdr.length) :
    fileWidth (hdr ++ rest) = fileWidth hdr := by
  unfold fileWidth
  rw [getD_congr (List.getElem?_append_left (by omega)),
    getD_congr (List.getElem?_append_left (by omega))]

theorem fileHeight_append (hdr rest : List Byte) (h : 16 ≤ hdr.length) :
    fileHeight (hdr ++ rest) = fileHeight hdr := by
  unfold fileHeight
  rw [getD_congr (List.getElem?_append_left (by omega)),
    getD_congr (List.getElem?_append_left (by omega))]

/-- The round trip below `2^31` pixels: for every image whose width and height
lie in `[0,65535]`, whose pixel sequence has length `width*height` and whose
pixel count `width*height` is below `2^31`, decoding the bytes produced by
encoding it gives back the same image: same width, same height, same pixel
sequence. -/
theorem readTGA_writeTGA (img : Image) (hw0 : 0 ≤ img.width) (hw1 : img.width ≤ 65535)
    (hh0 : 0 ≤ img.height) (hh1 : img.height ≤ 65535) (hwf : img.WF)
    (hcount : img.width * img.height < 2147483648) :
    readTGA (writeTGA img) = Except.ok img := by
  have hW := writeTGA_fileWidth img hw0 hw1
  have hH := writeTGA_fileHeight img hh0 hh1
  rw [readTGA_of_small _ (by rw [hW, hH]; exact hcount), hW, hH]
  obtain ⟨w, h, pixels⟩ := img
  simp only [Image.WF] at hwf
  congr 2
  apply List.ext_getElem?
  intro i
  rw [← hwf, Int.toNat_ofNat, List.getElem?_map]
  by_cases hi : i < pixels.length
  · rw [List.getElem?_range hi, Option.map_some', List.getElem?_eq_getElem hi]
    congr 1
    exact writeTGA_filePixel _ i _ (List.getElem?_eq_getElem hi)
  · rw [List.getElem?_eq_none (by simpa using hi), List.getElem?_eq_none (by omega)]
    rfl

/-- Instance of `readTGA_writeTGA` at the 2×1 image `smallImage`. -/
theorem readTGA_writeTGA_witness :
    (0 ≤ smallImage.width ∧ smallImage.width ≤ 65535 ∧ 0 ≤ smallImage.height ∧
      smallImage.height ≤ 65535 ∧ smallImage.WF ∧
      smallImage.width * smallImage.height < 2147483648) ∧
    readTGA (writeTGA smallImage) = Except.ok smallImage :=
  ⟨⟨by decide, by decide, by decide, by decide, by decide, by decide⟩,
    readTGA_writeTGA smallImage (by decide) (by decide) (by decide) (by decide) (by decide)
      (by decide)⟩

/-- C1, where the code breaks it: the 65535×65535 image `bigImage` has both
dimensions in `[0,65535]` and exactly `width*height` pixels, and `writeTGA`
encodes it, yet decoding that encoding ends in the exception
`std::length_error` instead of returning the image: the `int` product
`width*height` of `readTGA` has overflowed to a negative number. -/
theorem readTGA_writeTGA_bigImage :
    (0 ≤ bigImage.width ∧ bigImage.width ≤ 65535 ∧ 0 ≤ bigImage.height ∧
      bigImage.height ≤ 65535 ∧ bigImage.WF) ∧
    readTGA (writeTGA bigImage) = Except.error ReadError.lengthError ∧
    readTGA (writeTGA bigImage) ≠ Except.ok bigImage := by
  have hw : bigImage.width = 65535 := rfl
  have hh : bigImage.height = 65535 := rfl
  have hwf : bigImage.WF := by
    show ((List.replicate 4294836225 (⟨0, 0, 0⟩ : Pixel)).length : Int) = 65535 * 65535
    rw [List.length_replicate]
    norm_num
  have herr : readTGA (writeTGA bigImage) = Except.error ReadError.lengthError := by
    apply readTGA_of_big
    rw [writeTGA_fileWidth _ (by rw [hw]; norm_num) (by rw [hw]),
      writeTGA_fileHeight _ (by rw [hh]; norm_num) (by rw [hh]), hw, hh]
    norm_num
  refine ⟨⟨by rw [hw]; norm_num, by rw [hw], by rw [hh]; norm_num, by rw [hh], hwf⟩, herr, ?_⟩
  rw [herr]
  exact fun h => by cases h

/-- C2: for every image with width and height in `[0,65535]` and `width*height`
pixels, `writeTGA` emits exactly `18 + 3*width*height` bytes; bytes 0..11 and
byte 17 are 0, bytes 12, 13 are `width mod 256`, `width div 256`, bytes 14, 15
are `height mod 256`, `height div 256`, byte 16 is 24, and the bytes at offsets
`18+3i`, `18+3i+1`, `18+3i+2` are the blue, green and red of pixel `i`. -/
theorem writeTGA_layout (img : Image) (hw0 : 0 ≤ img.width) (hw1 : img.width ≤ 65535)
    (hh0 : 0 ≤ img.height) (hh1 : img.height ≤ 65535) (hwf : img.WF) :
    ((writeTGA img).length : Int) = 18 + 3 * img.width * img.height ∧
    (∀ k, k < 12 → (writeTGA img)[k]? = some 0) ∧
    (writeTGA img)[17]? = some 0 ∧
    (∃ b, (writeTGA img)[12]? = some b ∧ (b.val : Int) = img.width % 256) ∧
    (∃ b, (writeTGA img)[13]? = some b ∧ (b.val : Int) = img.width / 256) ∧
    (∃ b, (writeTGA img)[14]? = some b ∧ (b.val : Int) = img.height % 256) ∧
    (∃ b, (writeTGA img)[15]? = some b ∧ (b.val : Int) = img.height / 256) ∧
    (writeTGA img)[16]? = some 24 ∧
    (∀ i p, img.pixels[i]? = some p →
      (writeTGA img)[18 + 3 * i]? = some p.b ∧
      (writeTGA img)[18 + 3 * i + 1]? = some p.g ∧
      (writeTGA img)[18 + 3 * i + 2]? = some p.r) := by
  refine ⟨?_, ?_, ?_, ?_, ?_, ?_, ?_, ?_, ?_⟩
  · rw [writeTGA_length]
    unfold Image.WF at hwf
    push_cast
    rw [hwf]
    ring
  · intro k hk
    rw [writeTGA_header img k (by omega)]
    interval_cases k <;> rfl
  · rw [writeTGA_header img 17 (by norm_num)]
    rfl
  · exact ⟨_, by rw [writeTGA_header img 12 (by norm_num)]; rfl, lowByte_val hw0⟩
  · exact ⟨_, by rw [writeTGA_header img 13 (by norm_num)]; rfl, highByte_val hw0 hw1⟩
  · exact ⟨_, by rw [writeTGA_header img 14 (by norm_num)]; rfl, lowByte_val hh0⟩
  · exact ⟨_, by rw [writeTGA_header img 15 (by norm_num)]; rfl, highByte_val hh0 hh1⟩
  · rw [writeTGA_header img 16 (by norm_num)]
    rfl
  · intro i p hp
    have h := bgr_getElem? img.pixels i
    rw [hp] at h
    simp only [Nat.add_assoc, writeTGA_body]
    exact h

/-- Instance of `writeTGA_layout` at the 2×1 image `smallImage`. -/
theorem writeTGA_layout_witness :
    (0 ≤ smallImage.width ∧ smallImage.width ≤ 65535 ∧ 0 ≤ smallImage.height ∧
      smallImage.height ≤ 65535 ∧ smallImage.WF) ∧
    ((writeTGA smallImage).length : Int) = 18 + 3 * smallImage.width * smallImage.height ∧
    (writeTGA smallImage)[16]? = some 24 :=
  have h := writeTGA_layout smallImage (by decide) (by decide) (by decide) (by decide)
    (by decide)
  ⟨⟨by decide, by decide, by decide, by decide, by decide⟩, h.1, h.2.2.2.2.2.2.2.1⟩

/-- The decode layout below `2^31` pixels: for every byte sequence announcing
width `w` and height `h` (little-endian at offsets 12-13 and 14-15) with `w*h`
below `2^31` and with at least `18 + 3*w*h` bytes, `readTGA` returns an image of width `w`, height `h`
and exactly `w*h` pixels, pixel `i` having blue, green, red equal to the bytes
at `18+3i`, `18+3i+1`, `18+3i+2`; every byte sequence that agrees with it on
offsets 12..15 and `18 .. 18+3*w*h-1` decodes to the same image. -/
theorem readTGA_layout (file : List Byte)
    (hlen : 18 + 3 * (fileWidth file * fileHeight file) ≤ (file.length : Int))
    (hcount : fileWidth file * fileHeight file < 2147483648) :
    ∃ img, readTGA file = Except.ok img ∧
      img.width = fileWidth file ∧ img.height = fileHeight file ∧
      (img.pixels.length : Int) = fileWidth file * fileHeight file ∧
      (∀ i : Nat, (i : Int) < fileWidth file * fileHeight file →
        ∃ p, img.pixels[i]? = some p ∧ file[18 + 3 * i]? = some p.b ∧
          file[18 + 3 * i + 1]? = some p.g ∧ file[18 + 3 * i + 2]? = some p.r) ∧
      (∀ other : List Byte,
        (∀ k : Nat, (12 ≤ k ∧ k < 16) ∨
            (18 ≤ k ∧ (k : Int) < 18 + 3 * (fileWidth file * fileHeight file)) →
          other[k]? = file[k]?) →
        readTGA other = Except.ok img) := by
  have hn : 0 ≤ fileWidth file * fileHeight file :=
    Int.mul_nonneg (fileWidth_range file).1 (fileHeight_range file).1
  refine ⟨_, readTGA_of_small file hcount, rfl, rfl, ?_, ?_, ?_⟩
  · simp only [List.length_map, List.length_range]
    exact Int.toNat_of_nonneg hn
  · intro i hi
    refine ⟨filePixel file i, ?_, ?_, ?_, ?_⟩
    · rw [List.getElem?_map, List.getElem?_range (by omega)]
      rfl
    · exact getElem?_eq_some_getD (by omega)
    · exact getElem?_eq_some_getD (by omega)
    · exact getElem?_eq_some_getD (by omega)
  · intro other hsame
    have hW : fileWidth other = fileWidth file := by
      unfold fileWidth
      rw [getD_congr (hsame 12 (Or.inl (by omega))), getD_congr (hsame 13 (Or.inl (by omega)))]
    have hH : fileHeight other = fileHeight file := by
      unfold fileHeight
      rw [getD_congr (hsame 14 (Or.inl (by omega))), getD_congr (hsame 15 (Or.inl (by omega)))]
    rw [readTGA_of_small other (by rw [hW, hH]; exact hcount), hW, hH]
    congr 2
    apply List.map_congr_left
    intro i hi
    rw [List.mem_range] at hi
    unfold filePixel
    rw [getD_congr (hsame (18 + 3 * i + 2) (Or.inr (by omega))),
      getD_congr (hsame (18 + 3 * i + 1) (Or.inr (by omega))),
      getD_congr (hsame (18 + 3 * i) (Or.inr (by omega)))]

/-- Instance of `readTGA_layout` at the 25-byte file `smallFile`, whose first
twelve bytes, byte 17 and last byte are not zero. -/
theorem readTGA_layout_witness :
    (18 + 3 * (fileWidth smallFile * fileHeight smallFile) ≤ (smallFile.length : Int) ∧
      fileWidth smallFile * fileHeight smallFile < 2147483648) ∧
    ∃ img, readTGA smallFile = Except.ok img ∧ img.width = 2 ∧ img.height = 1 :=
  have h := readTGA_layout smallFile (by decide) (by decide)
  ⟨⟨by decide, by decide⟩, h.elim fun img hi => ⟨img, hi.1, hi.2.1, hi.2.2.1⟩⟩

/-- C3, where the code breaks it: `bigFile` announces 65535×65535 and holds all
`18 + 3*65535*65535` bytes, yet `readTGA` ends in the exception
`std::length_error` instead of returning an image of that width and height: the
`int` product `width*height` has overflowed to a negative number. -/
theorem readTGA_bigFile :
    18 + 3 * (fileWidth bigFile * fileHeight bigFile) ≤ (bigFile.length : Int) ∧
    readTGA bigFile = Except.error ReadError.lengthError ∧
    ¬ ∃ img, readTGA bigFile = Except.ok img := by
  have hW : fileWidth bigFile = 65535 := by
    unfold bigFile
    rw [fileWidth_append _ _ (by decide)]
    decide
  have hH : fileHeight bigFile = 65535 := by
    unfold bigFile
    rw [fileHeight_append _ _ (by decide)]
    decide
  have hL : bigFile.length = 18 + 12884508675 := by
    unfold bigFile
    rw [List.length_append, List.length_replicate]
    rfl
  have herr : readTGA bigFile = Except.error ReadError.lengthError := by
    apply readTGA_of_big
    rw [hW, hH]
    norm_num
  refine ⟨by rw [hW, hH, hL]; norm_num, herr, ?_⟩
  rintro ⟨img, h⟩
  rw [herr] at h
  cases h

/-! ## Error bounds of binary32 arithmetic -/

theorem roundHalfEven_err (q : ℚ) : |(roundHalfEven q : ℚ) - q| ≤ 1 / 2 := by
  have h1 : ((⌊q⌋ : Int) : ℚ) ≤ q := Int.floor_le q
  have h2 : q < ((⌊q⌋ : Int) : ℚ) + 1 := Int.lt_floor_add_one q
  unfold roundHalfEven
  simp only []
  rw [abs_le]
  split_ifs with a b c
  · constructor <;> linarith
  · push_cast; constructor <;> linarith
  · constructor <;> linarith
  · push_cast; constructor <;> linarith

/-- Rounding to binary32 moves a value of magnitude at most `B` (with `B ≥ 1`)
by at most `B * 2^-24`. -/
theorem F32.round_err (x B : ℚ) (hx : |x| ≤ B) (hB : 1 ≤ B) :
    |F32.round x - x| ≤ B / 16777216 := by
  unfold F32.round
  split_ifs with h0
  · subst h0
    simp only [sub_self, abs_zero]
    positivity
  · simp only []
    set e : Int := max (Int.log 2 |x|) (-126) with he
    have hpos : (0 : ℚ) < 2 ^ (e - 23) := by positivity
    have hr := roundHalfEven_err (x / 2 ^ (e - 23))
    have hfact : (roundHalfEven (x / 2 ^ (e - 23)) : ℚ) * 2 ^ (e - 23) - x
        = ((roundHalfEven (x / 2 ^ (e - 23)) : ℚ) - x / 2 ^ (e - 23)) * 2 ^ (e - 23) := by
      field_simp
    rw [hfact, abs_mul, abs_of_pos hpos]
    have hulp : (2 : ℚ) ^ (e - 23) = 2 ^ e / 8388608 := by
      rw [zpow_sub₀ (by norm_num : (2 : ℚ) ≠ 0)]
      norm_num
    have he2 : (2 : ℚ) ^ e ≤ B := by
      rcases max_cases (Int.log 2 |x|) (-126) with ⟨h, _⟩ | ⟨h, _⟩
      · rw [he, h]
        have := Int.zpow_log_le_self (b := 2) (r := |x|) (by norm_num) (abs_pos.2 h0)
        exact le_trans (by exact_mod_cast this) hx
      · rw [he, h]
        refine le_trans ?_ hB
        exact zpow_le_one_of_nonpos₀ (by norm_num) (by norm_num)
    calc |(roundHalfEven (x / 2 ^ (e - 23)) : ℚ) - x / 2 ^ (e - 23)| * 2 ^ (e - 23)
        ≤ 1 / 2 * 2 ^ (e - 23) := by gcongr
      _ = 2 ^ e / 16777216 := by rw [hulp]; ring
      _ ≤ B / 16777216 := by gcongr

theorem mul_close (x y X Y dx dy BX BY : ℚ) (hx : |x - X| ≤ dx) (hy : |y - Y| ≤ dy)
    (hX : |X| ≤ BX) (hY : |Y| ≤ BY) :
    |x * y - X * Y| ≤ dx * BY + dy * BX + dx * dy := by
  have e : x * y - X * Y = (x - X) * Y + X * (y - Y) + (x - X) * (y - Y) := by ring
  have hdx : 0 ≤ dx := le_trans (abs_nonneg _) hx
  have hBX : 0 ≤ BX := le_trans (abs_nonneg _) hX
  rw [e]
  calc |(x - X) * Y + X * (y - Y) + (x - X) * (y - Y)|
      ≤ |(x - X) * Y| + |X * (y - Y)| + |(x - X) * (y - Y)| := abs_add_three _ _ _
    _ = |x - X| * |Y| + |X| * |y - Y| + |x - X| * |y - Y| := by simp only [abs_mul]
    _ ≤ dx * BY + BX * dy + dx * dy := by gcongr
    _ = dx * BY + dy * BX + dx * dy := by ring

/-- The binary32 product of two approximations approximates the exact product. -/
theorem F32.mul_near (x y X Y dx dy BX BY B d : ℚ) (hx : |x - X| ≤ dx) (hy : |y - Y| ≤ dy)
    (hX : |X| ≤ BX) (hY : |Y| ≤ BY) (hB1 : 1 ≤ B)
    (hB : BX * BY + (dx * BY + dy * BX + dx * dy) ≤ B)
    (hd : dx * BY + dy * BX + dx * dy + B / 16777216 ≤ d) :
    |F32.mul x y - X * Y| ≤ d := by
  have h1 := mul_close x y X Y dx dy BX BY hx hy hX hY
  have hXY : |X * Y| ≤ BX * BY := by
    rw [abs_mul]
    exact mul_le_mul hX hY (abs_nonneg _) (le_trans (abs_nonneg _) hX)
  have h2 : |x * y| ≤ B := by
    have : |x * y| ≤ |x * y - X * Y| + |X * Y| := by
      have := abs_add (x * y - X * Y) (X * Y)
      simpa using this
    linarith
  have h3 := F32.round_err (x * y) B h2 hB1
  have h4 : |F32.mul x y - X * Y| ≤ |F32.round (x * y) - x * y| + |x * y - X * Y| := by
    have := abs_add (F32.round (x * y) - x * y) (x * y - X * Y)
    simpa [F32.mul] using this
  linarith

/-- The binary32 difference of two approximations approximates the exact
difference. -/
theorem F32.sub_near (x y X Y dx dy BD B d : ℚ) (hx : |x - X| ≤ dx) (hy : |y - Y| ≤ dy)
    (hD : |X - Y| ≤ BD) (hB1 : 1 ≤ B) (hB : BD + (dx + dy) ≤ B)
    (hd : dx + dy + B / 16777216 ≤ d) :
    |F32.sub x y - (X - Y)| ≤ d := by
  have h1 : |(x - y) - (X - Y)| ≤ dx + dy := by
    have e : (x - y) - (X - Y) = (x - X) - (y - Y) := by ring
    rw [e]
    exact le_trans (abs_sub _ _) (add_le_add hx hy)
  have h2 : |x - y| ≤ B := by
    have : |x - y| ≤ |(x - y) - (X - Y)| + |X - Y| := by
      have := abs_add ((x - y) - (X - Y)) (X - Y)
      simpa using this
    linarith
  have h3 := F32.round_err (x - y) B h2 hB1
  have h4 : |F32.sub x y - (X - Y)| ≤ |F32.round (x - y) - (x - y)| + |(x - y) - (X - Y)| := by
    have := abs_add (F32.round (x - y) - (x - y)) ((x - y) - (X - Y))
    simpa [F32.sub] using this
  linarith

theorem lroundf_near (s : ℚ) (n : ℕ) (h : |s - (n : ℚ) / 255| ≤ 1 / 1000) :
    lroundf s = (((2 * n + 255) / 510 : ℕ) : Int) := by
  set k : ℕ := (2 * n + 255) / 510 with hk
  have hk1 : 510 * k + 1 ≤ 2 * n + 255 := by omega
  have hk2 : 2 * n + 255 ≤ 510 * k + 509 := by omega
  have hk1q : (510 : ℚ) * k + 1 ≤ 2 * n + 255 := by exact_mod_cast hk1
  have hk2q : (2 : ℚ) * n + 255 ≤ 510 * k + 509 := by exact_mod_cast hk2
  rw [abs_le] at h
  obtain ⟨hl, hu⟩ := h
  unfold lroundf
  split_ifs with hs
  · rw [Int.floor_eq_iff]
    push_cast
    constructor <;> linarith
  · push_neg at hs
    have hn : n = 0 := by
      have h1 : (n : ℚ) < 1 := by linarith
      have h2 : n < 1 := by exact_mod_cast h1
      omega
    subst hn
    have hk0 : k = 0 := by omega
    rw [hk0]
    simp only [CharP.cast_eq_zero, neg_eq_zero]
    rw [Int.floor_eq_iff]
    push_cast
    simp only [Nat.cast_zero, zero_div] at hl hu
    constructor <;> linarith

theorem roundClamp_eq (n : ℕ) :
    roundClamp ((n : ℚ) / 255) = clamp (((2 * n + 255) / 510 : ℕ) : Int) := by
  unfold roundClamp
  rw [lroundf_near ((n : ℚ) / 255) n (by simp)]

theorem roundClamp_val (n : ℕ) :
    (roundClamp ((n : ℚ) / 255)).val = min 255 ((2 * n + 255) / 510) := by
  have h := clamp_val (((2 * n + 255) / 510 : ℕ) : Int)
  rw [← roundClamp_eq] at h
  split_ifs at h <;> omega

/-- A value within `60 * 2^-24` of `n / 255^2` is turned by `denormalize` into
`n / 255` rounded to the nearest integer and saturated. -/
theorem denormalize_of_near (v : ℚ) (n : ℕ) (hn : n ≤ 130050)
    (hv : |v - (n : ℚ) / 65025| ≤ 60 / 16777216) :
    denormalize v = roundClamp ((n : ℚ) / 255) := by
  have hnq : (n : ℚ) ≤ 130050 := by exact_mod_cast hn
  have hn0 : (0 : ℚ) ≤ n := Nat.cast_nonneg n
  have h1 : |v * 255 - (n : ℚ) / 255| ≤ 15300 / 16777216 := by
    have e : v * 255 - (n : ℚ) / 255 = (v - (n : ℚ) / 65025) * 255 := by ring
    rw [e, abs_mul, abs_of_pos (by norm_num : (0 : ℚ) < 255)]
    linarith
  have h2 : |v * 255| ≤ 512 := by
    have h3 : |v * 255| ≤ |v * 255 - (n : ℚ) / 255| + |(n : ℚ) / 255| := by
      have := abs_add (v * 255 - (n : ℚ) / 255) ((n : ℚ) / 255)
      simpa using this
    have h4 : |(n : ℚ) / 255| ≤ 510 := by
      rw [abs_of_nonneg (by positivity)]
      linarith
    linarith
  have h5 := F32.round_err (v * 255) 512 h2 (by norm_num)
  have h6 : |F32.mul v 255 - (n : ℚ) / 255| ≤ 1 / 1000 := by
    have h7 : |F32.mul v 255 - (n : ℚ) / 255|
        ≤ |F32.round (v * 255) - v * 255| + |v * 255 - (n : ℚ) / 255| := by
      have := abs_add (F32.round (v * 255) - v * 255) (v * 255 - (n : ℚ) / 255)
      simpa [F32.mul] using this
    linarith
  unfold denormalize
  rw [lroundf_near _ n h6, roundClamp_eq, toInt32_of_range (by omega) (by omega)]

/-! ## The channel formulas in exact arithmetic -/

theorem byte_unit (a : Byte) : (0 : ℚ) ≤ (a.val : ℚ) / 255 ∧ (a.val : ℚ) / 255 ≤ 1 := by
  have h : (a.val : ℚ) ≤ 255 := by
    have := a.isLt
    exact_mod_cast (by omega : a.val ≤ 255)
  have h0 : (0 : ℚ) ≤ a.val := Nat.cast_nonneg _
  constructor
  · positivity
  · rw [div_le_one (by norm_num)]
    exact h

theorem normalize_near (a : Byte) : |normalize a - (a.val : ℚ) / 255| ≤ 1 / 16777216 := by
  have h := byte_unit a
  have := F32.round_err ((a.val : ℚ) / 255) 1 (by rw [abs_of_nonneg h.1]; exact h.2) (le_refl 1)
  simpa [normalize, F32.div] using this

theorem one_sub_normalize_near (a : Byte) :
    |F32.sub 1 (normalize a) - (1 - (a.val : ℚ) / 255)| ≤ 3 / 16777216 := by
  have h := byte_unit a
  refine F32.sub_near 1 (normalize a) 1 ((a.val : ℚ) / 255) 0 (1 / 16777216) 1 2
    (3 / 16777216) (by simp) (normalize_near a) ?_ (by norm_num) (by norm_num) (by norm_num)
  rw [abs_le]
  constructor <;> linarith

theorem one_sub_unit (a : Byte) : |1 - (a.val : ℚ) / 255| ≤ 1 := by
  have h := byte_unit a
  rw [abs_le]
  constructor <;> linarith

/-- The value of `multiply` on one channel is `a*b/255` rounded to the nearest
integer (ties away from zero) and saturated. -/
theorem multiplyChannel_eq (a b : Byte) :
    multiplyChannel a b = roundClamp ((a.val : ℚ) * (b.val : ℚ) / 255) := by
  have ha := byte_unit a
  have hb := byte_unit b
  have hp : |F32.mul (normalize a) (normalize b) - (a.val : ℚ) / 255 * ((b.val : ℚ) / 255)|
      ≤ 5 / 16777216 :=
    F32.mul_near _ _ _ _ (1 / 16777216) (1 / 16777216) 1 1 2 _ (normalize_near a)
      (normalize_near b) (by rw [abs_of_nonneg ha.1]; exact ha.2)
      (by rw [abs_of_nonneg hb.1]; exact hb.2) (by norm_num) (by norm_num) (by norm_num)
  have hle : a.val * b.val ≤ 130050 := by
    have h1 := a.isLt
    have h2 := b.isLt
    have : a.val * b.val ≤ 255 * 255 := Nat.mul_le_mul (by omega) (by omega)
    omega
  have e : (a.val : ℚ) / 255 * ((b.val : ℚ) / 255) = ((a.val * b.val : ℕ) : ℚ) / 65025 := by
    push_cast
    ring
  rw [e] at hp
  unfold multiplyChannel
  rw [denormalize_of_near _ (a.val * b.val) hle (le_trans hp (by norm_num))]
  push_cast
  rfl

/-- The value of `screen` on one channel is `255 - (255-a)*(255-b)/255` rounded
to the nearest integer and saturated. -/
theorem screenChannel_eq (a b : Byte) :
    screenChannel a b =
      roundClamp (((65025 - (255 - a.val) * (255 - b.val) : ℕ) : ℚ) / 255) := by
  have ha := byte_unit a
  have hb := byte_unit b
  have hm : |F32.mul (F32.sub 1 (normalize a)) (F32.sub 1 (normalize b))
      - (1 - (a.val : ℚ) / 255) * (1 - (b.val : ℚ) / 255)| ≤ 9 / 16777216 :=
    F32.mul_near _ _ _ _ (3 / 16777216) (3 / 16777216) 1 1 2 _ (one_sub_normalize_near a)
      (one_sub_normalize_near b) (one_sub_unit a) (one_sub_unit b) (by norm_num) (by norm_num)
      (by norm_num)
  have hprod : |1 - (1 - (a.val : ℚ) / 255) * (1 - (b.val : ℚ) / 255)| ≤ 1 := by
    have h1 : 0 ≤ (1 - (a.val : ℚ) / 255) * (1 - (b.val : ℚ) / 255) :=
      mul_nonneg (by linarith) (by linarith)
    have h2 : (1 - (a.val : ℚ) / 255) * (1 - (b.val : ℚ) / 255) ≤ 1 * 1 :=
      mul_le_mul (by linarith) (by linarith) (by linarith) (by norm_num)
    rw [abs_le]
    constructor <;> linarith
  have hr : |F32.sub 1 (F32.mul (F32.sub 1 (normalize a)) (F32.sub 1 (normalize b)))
      - (1 - (1 - (a.val : ℚ) / 255) * (1 - (b.val : ℚ) / 255))| ≤ 12 / 16777216 :=
    F32.sub_near 1 _ 1 _ 0 (9 / 16777216) 1 2 _ (by simp) hm hprod (by norm_num)
      (by norm_num) (by norm_num)
  have h1 := a.isLt
  have h2 := b.isLt
  have hle : (255 - a.val) * (255 - b.val) ≤ 65025 := by
    have : (255 - a.val) * (255 - b.val) ≤ 255 * 255 := Nat.mul_le_mul (by omega) (by omega)
    omega
  have e : 1 - (1 - (a.val : ℚ) / 255) * (1 - (b.val : ℚ) / 255)
      = ((65025 - (255 - a.val) * (255 - b.val) : ℕ) : ℚ) / 65025 := by
    rw [Nat.cast_sub hle]
    push_cast [Nat.cast_sub (by omega : a.val ≤ 255), Nat.cast_sub (by omega : b.val ≤ 255)]
    field_simp
    ring
  rw [e] at hr
  unfold screenChannel
  rw [denormalize_of_near _ _ (by omega) (le_trans hr (by norm_num))]

theorem foldl_set_length (f : Nat → Pixel) (k : Nat) (l : List Pixel) :
    ((List.range k).foldl (fun acc j => acc.set j (f j)) l).length = l.length := by
  induction k with
  | zero => rfl
  | succ k ih => rw [List.range_succ, List.foldl_append, List.foldl_cons, List.foldl_nil,
      List.length_set, ih]

theorem foldl_set_getElem? (f : Nat → Pixel) (k : Nat) (l : List Pixel) (i : Nat) :
    ((List.range k).foldl (fun acc j => acc.set j (f j)) l)[i]? =
      if i < k then (if i < l.length then some (f i) else none) else l[i]? := by
  induction k with
  | zero => simp
  | succ k ih =>
    rw [List.range_succ, List.foldl_append, List.foldl_cons, List.foldl_nil, List.getElem?_set,
      foldl_set_length, ih]
    by_cases h1 : k = i
    · subst h1
      simp
    · by_cases h2 : i < k
      · simp [h1, h2, Nat.lt_succ_of_lt h2]
      · have h3 : ¬ i < k + 1 := by omega
        simp [h1, h2, h3]

theorem forIndex_length (n : Int) (f : Nat → Pixel) (l : List Pixel) :
    (forIndex n f l).length = l.length :=
  foldl_set_length f n.toNat l

theorem forIndex_getElem? (n : Int) (f : Nat → Pixel) (l : List Pixel) (i : Nat) (p : Pixel)
    (hp : l[i]? = some p) :
    (forIndex n f l)[i]? = some (if (i : Int) < n then f i else p) := by
  have hi : i < l.length := (List.getElem?_eq_some_iff.1 hp).1
  unfold forIndex
  rw [foldl_set_getElem?]
  by_cases h : i < n.toNat
  · rw [if_pos h, if_pos hi, if_pos (Int.lt_toNat.1 h)]
  · rw [if_neg h, if_neg (fun h2 => h (Int.lt_toNat.2 h2)), hp]

theorem getD_of_getElem? {l : List Pixel} {i : Nat} {p : Pixel} (hp : l[i]? = some p) :
    l.getD i default = p := by
  rw [List.getD_eq_getElem?_getD, hp]
  rfl

theorem total_le_length (img : Image) (hwf : img.WF) : img.total ≤ (img.pixels.length : Int) := by
  unfold Image.WF at hwf
  unfold Image.total
  rw [hwf]
  exact toInt32_le_self (by omega)

theorem total_congr (A B : Image) (hw : A.width = B.width) (hh : A.height = B.height) :
    A.total = B.total := by
  unfold Image.total
  rw [hw, hh]

theorem length_congr (A B : Image) (hA : A.WF) (hB : B.WF) (hw : A.width = B.width)
    (hh : A.height = B.height) : A.pixels.length = B.pixels.length := by
  unfold Image.WF at hA hB
  rw [hw, hh] at hA
  omega

theorem multiply_getElem? (A B : Image) (i : Nat) (a b : Pixel) (ha : A.pixels[i]? = some a)
    (hb : B.pixels[i]? = some b) :
    (multiply A B).pixels[i]? =
      some (if (i : Int) < A.total then Pixel.map2 multiplyChannel a b else a) := by
  unfold multiply
  simp only []
  rw [forIndex_getElem? _ _ _ i a ha, getD_of_getElem? ha, getD_of_getElem? hb]
  rfl

theorem screen_getElem? (A B : Image) (i : Nat) (a b : Pixel) (ha : A.pixels[i]? = some a)
    (hb : B.pixels[i]? = some b) :
    (screen A B).pixels[i]? =
      some (if (i : Int) < A.total then Pixel.map2 screenChannel a b else a) := by
  unfold screen
  simp only []
  rw [forIndex_getElem? _ _ _ i a ha, getD_of_getElem? ha, getD_of_getElem? hb]
  rfl

theorem multiplyChannel_val (a b : Byte) :
    (multiplyChannel a b).val = min 255 ((2 * (a.val * b.val) + 255) / 510) := by
  rw [multiplyChannel_eq, ← roundClamp_val]
  push_cast
  rfl

theorem subtract_length (A B : Image) : (subtract A B).pixels.length = A.pixels.length :=
  forIndex_length _ _ _

theorem multiply_length (A B : Image) : (multiply A B).pixels.length = A.pixels.length :=
  forIndex_length _ _ _

theorem screen_length (A B : Image) : (screen A B).pixels.length = A.pixels.length :=
  forIndex_length _ _ _

theorem overlay_length (A B : Image) : (overlay A B).pixels.length = A.pixels.length :=
  forIndex_length _ _ _

theorem invert_val (x : Byte) : (toUChar (255 - (x.val : Int))).val = 255 - x.val := by
  have h := x.isLt
  have := toUChar_val (x := 255 - (x.val : Int)) (by omega) (by omega)
  omega

theorem screenChannel_val (a b : Byte) :
    (screenChannel a b).val =
      min 255 ((2 * (65025 - (255 - a.val) * (255 - b.val)) + 255) / 510) := by
  rw [screenChannel_eq, roundClamp_val]

/-- On one channel, `screen` is exactly 255 minus `multiply` of the inverted
bytes. -/
theorem screen_dual_channel (a b : Byte) :
    (screenChannel a b).val =
      255 - (multiplyChannel (toUChar (255 - (a.val : Int))) (toUChar (255 - (b.val : Int)))).val := by
  have h1 := a.isLt
  have h2 := b.isLt
  rw [screenChannel_val, multiplyChannel_val, invert_val, invert_val]
  have hle : (255 - a.val) * (255 - b.val) ≤ 255 * 255 := Nat.mul_le_mul (by omega) (by omega)
  generalize (255 - a.val) * (255 - b.val) = M at hle
  omega

theorem invert_getElem? (A : Image) (i : Nat) (a : Pixel) (ha : A.pixels[i]? = some a) :
    (invert A).pixels[i]? = some (invertPixel a) := by
  unfold invert
  simp only [List.getElem?_map, ha, Option.map_some']

theorem screen_small_first :
    (screen smallImage smallImageB).pixels[0]? = some ⟨255, 100, 153⟩ := by
  rw [screen_getElem? smallImage smallImageB 0 ⟨200, 100, 50⟩ ⟨255, 0, 128⟩ rfl rfl,
    if_pos (by decide)]
  simp only [Pixel.map2, Option.some.injEq, Pixel.mk.injEq]
  refine ⟨?_, ?_, ?_⟩ <;> apply Fin.ext <;> rw [screenChannel_val] <;> decide

/-- C7: for every pair of images with equal width and height and pixel length
`width*height`, every channel of every pixel of `screen(A,B)` is at most 1 away
from 255 minus the same channel of `multiply(invert(A), invert(B))`. -/
theorem screen_multiply_duality (A B : Image) (hA : A.WF) (hB : B.WF)
    (hw : A.width = B.width) (hh : A.height = B.height) :
    ∀ (i : Nat) (s : Pixel), (screen A B).pixels[i]? = some s →
      ∃ m, (multiply (invert A) (invert B)).pixels[i]? = some m ∧
        |(s.r.val : Int) - (255 - (m.r.val : Int))| ≤ 1 ∧
        |(s.g.val : Int) - (255 - (m.g.val : Int))| ≤ 1 ∧
        |(s.b.val : Int) - (255 - (m.b.val : Int))| ≤ 1 := by
  intro i s hs
  have hi : i < A.pixels.length := by
    have := (List.getElem?_eq_some_iff.1 hs).1
    rwa [screen_length] at this
  have hl := length_congr A B hA hB hw hh
  have hiB : i < B.pixels.length := by omega
  have ha : A.pixels[i]? = some A.pixels[i] := List.getElem?_eq_getElem hi
  have hb : B.pixels[i]? = some B.pixels[i] := List.getElem?_eq_getElem hiB
  generalize A.pixels[i] = a at ha
  generalize B.pixels[i] = b at hb
  rw [screen_getElem? A B i a b ha hb] at hs
  have hm := multiply_getElem? (invert A) (invert B) i _ _ (invert_getElem? A i a ha)
    (invert_getElem? B i b hb)
  have ht : (invert A).total = A.total := rfl
  rw [ht] at hm
  refine ⟨_, hm, ?_⟩
  have ha1 := a.r.isLt
  have ha2 := a.g.isLt
  have ha3 := a.b.isLt
  by_cases hlt : (i : Int) < A.total
  · rw [if_pos hlt] at hs
    rw [if_pos hlt, ← Option.some.inj hs]
    have e1 := screen_dual_channel a.r b.r
    have e2 := screen_dual_channel a.g b.g
    have e3 := screen_dual_channel a.b b.b
    have l1 := (multiplyChannel (toUChar (255 - (a.r.val : Int)))
      (toUChar (255 - (b.r.val : Int)))).isLt
    have l2 := (multiplyChannel (toUChar (255 - (a.g.val : Int)))
      (toUChar (255 - (b.g.val : Int)))).isLt
    have l3 := (multiplyChannel (toUChar (255 - (a.b.val : Int)))
      (toUChar (255 - (b.b.val : Int)))).isLt
    simp only [Pixel.map2, invertPixel]
    refine ⟨?_, ?_, ?_⟩ <;> rw [abs_le] <;> omega
  · rw [if_neg hlt] at hs
    rw [if_neg hlt, ← Option.some.inj hs]
    have e1 := invert_val a.r
    have e2 := invert_val a.g
    have e3 := invert_val a.b
    simp only [invertPixel]
    refine ⟨?_, ?_, ?_⟩ <;> rw [abs_le] <;> omega

/-- Instance of `screen_multiply_duality` at the 2×1 scenario images and pixel 0,
which `screen` turns into (255,100,153). -/
theorem screen_multiply_duality_witness :
    (smallImage.WF ∧ smallImageB.WF ∧ smallImage.width = smallImageB.width ∧
      smallImage.height = smallImageB.height ∧
      (screen smallImage smallImageB).pixels[0]? = some ⟨255, 100, 153⟩) ∧
    ∃ m, (multiply (invert smallImage) (invert smallImageB)).pixels[0]? = some m ∧
      |(((255 : Byte).val : Int)) - (255 - (m.r.val : Int))| ≤ 1 ∧
      |(((100 : Byte).val : Int)) - (255 - (m.g.val : Int))| ≤ 1 ∧
      |(((153 : Byte).val : Int)) - (255 - (m.b.val : Int))| ≤ 1 :=
  ⟨⟨by decide, by decide, by decide, by decide, screen_small_first⟩,
    screen_multiply_duality smallImage smallImageB (by decide) (by decide) (by decide)
      (by decide) 0 ⟨255, 100, 153⟩ screen_small_first⟩

/-- C8: for every image `A` with pixel length `width*height` and every image `W`
of the same dimensions whose pixels are all (255,255,255), `multiply(A,W)` has
the dimensions of `A` and every channel of every pixel differs from that of `A`
by at most 1. -/
theorem multiply_white (A W : Image) (hA : A.WF) (hW : W.WF) (hw : A.width = W.width)
    (hh : A.height = W.height) (hwhite : ∀ p ∈ W.pixels, p = ⟨255, 255, 255⟩) :
    (multiply A W).width = A.width ∧ (multiply A W).height = A.height ∧
    (multiply A W).pixels.length = A.pixels.length ∧
    ∀ (i : Nat) (a : Pixel), A.pixels[i]? = some a →
      ∃ m, (multiply A W).pixels[i]? = some m ∧
        |(m.r.val : Int) - (a.r.val : Int)| ≤ 1 ∧
        |(m.g.val : Int) - (a.g.val : Int)| ≤ 1 ∧
        |(m.b.val : Int) - (a.b.val : Int)| ≤ 1 := by
  refine ⟨rfl, rfl, multiply_length A W, ?_⟩
  intro i a ha
  have hi : i < A.pixels.length := (List.getElem?_eq_some_iff.1 ha).1
  have hl := length_congr A W hA hW hw hh
  have hb : W.pixels[i]? = some ⟨255, 255, 255⟩ := by
    rw [List.getElem?_eq_getElem (by omega)]
    exact congrArg some (hwhite _ (List.getElem_mem _))
  refine ⟨_, multiply_getElem? A W i a _ ha hb, ?_⟩
  have ha1 := a.r.isLt
  have ha2 := a.g.isLt
  have ha3 := a.b.isLt
  have e1 := multiplyChannel_val a.r 255
  have e2 := multiplyChannel_val a.g 255
  have e3 := multiplyChannel_val a.b 255
  have v : (255 : Byte).val = 255 := rfl
  rw [v] at e1 e2 e3
  split_ifs
  · simp only [Pixel.map2]
    refine ⟨?_, ?_, ?_⟩ <;> rw [abs_le] <;> omega
  · simp

/-- Instance of `multiply_white` at the 2×1 image `smallImage` and its pixel 0. -/
theorem multiply_white_witness :
    (smallImage.WF ∧ smallWhite.WF ∧ smallImage.width = smallWhite.width ∧
      smallImage.height = smallWhite.height ∧
      (∀ p ∈ smallWhite.pixels, p = ⟨255, 255, 255⟩) ∧
      smallImage.pixels[0]? = some ⟨200, 100, 50⟩) ∧
    ∃ m, (multiply smallImage smallWhite).pixels[0]? = some m ∧
      |(m.r.val : Int) - ((200 : Byte).val : Int)| ≤ 1 ∧
      |(m.g.val : Int) - ((100 : Byte).val : Int)| ≤ 1 ∧
      |(m.b.val : Int) - ((50 : Byte).val : Int)| ≤ 1 :=
  ⟨⟨by decide, by decide, by decide, by decide, by decide, by decide⟩,
    (multiply_white smallImage smallWhite (by decide) (by decide) (by decide) (by decide)
      (by decide)).2.2.2 0 ⟨200, 100, 50⟩ (by decide)⟩

theorem toInt32_lt (x : Int) : toInt32 x < 2147483648 := by
  unfold toInt32
  omega

/-- The pixels of `rotate180`: below the loop bound `n` the pixel at `n-1-i`,
from the loop bound on the original pixel. -/
theorem rotate180_getElem? (img : Image) (hwf : img.WF) (i : Nat) :
    (rotate180 img).pixels[i]? =
      if (i : Int) < img.total then img.pixels[img.total.toNat - 1 - i]? else img.pixels[i]? := by
  have hn := total_le_length img hwf
  have hn2 : img.total < 2147483648 := toInt32_lt _
  unfold rotate180
  simp only []
  by_cases hi : i < img.pixels.length
  · rw [forIndex_getElem? _ _ _ i _ (List.getElem?_eq_getElem hi)]
    by_cases hlt : (i : Int) < img.total
    · rw [if_pos hlt, if_pos hlt]
      have e1 : toInt32 (img.total - (i : Int)) = img.total - (i : Int) :=
        toInt32_of_range (by omega) (by omega)
      have e2 : toInt32 (img.total - (i : Int) - 1) = img.total - (i : Int) - 1 :=
        toInt32_of_range (by omega) (by omega)
      have e3 : (img.total - (i : Int) - 1).toNat = img.total.toNat - 1 - i := by omega
      rw [e1, e2, e3, List.getD_eq_getElem?_getD,
        List.getElem?_eq_getElem (by omega : img.total.toNat - 1 - i < img.pixels.length)]
      rfl
    · rw [if_neg hlt, if_neg hlt, List.getElem?_eq_getElem hi]
  · rw [List.getElem?_eq_none (by rw [forIndex_length]; omega)]
    rw [if_neg (by omega), List.getElem?_eq_none (by omega)]

theorem rotate180_WF (img : Image) (hwf : img.WF) : (rotate180 img).WF := by
  unfold Image.WF at hwf ⊢
  have hl : (rotate180 img).pixels.length = img.pixels.length := forIndex_length _ _ _
  have hw : (rotate180 img).width = img.width := rfl
  have hh : (rotate180 img).height = img.height := rfl
  rw [hl, hw, hh]
  exact hwf

/-- C10: for every image whose pixel sequence has length `width*height`,
`rotate180(rotate180(img))` is `img`: same width, same height, same pixels. -/
theorem rotate180_involution (img : Image) (hwf : img.WF) :
    rotate180 (rotate180 img) = img := by
  have hn := total_le_length img hwf
  have ht : (rotate180 img).total = img.total := rfl
  have hp : (rotate180 (rotate180 img)).pixels = img.pixels := by
    apply List.ext_getElem?
    intro i
    rw [rotate180_getElem? _ (rotate180_WF img hwf), ht]
    by_cases hlt : (i : Int) < img.total
    · rw [if_pos hlt, rotate180_getElem? _ hwf, if_pos (by omega)]
      congr 1
      omega
    · rw [if_neg hlt, rotate180_getElem? _ hwf, if_neg hlt]
  have hw : (rotate180 (rotate180 img)).width = img.width := rfl
  have hh : (rotate180 (rotate180 img)).height = img.height := rfl
  cases hr : rotate180 (rotate180 img) with
  | mk w h px =>
    rw [hr] at hp hw hh
    simp only at hp hw hh
    rw [hp, hw, hh]

/-- Instance of `rotate180_involution` at the 2×2 image `squareImage`. -/
theorem rotate180_involution_witness :
    squareImage.WF ∧ rotate180 (rotate180 squareImage) = squareImage :=
  ⟨by decide, rotate180_involution squareImage (by decide)⟩

/-! ## Rotation -/

theorem combineChannels_length (R G B : Image) :
    (combineChannels R G B).pixels.length = R.pixels.length :=
  forIndex_length _ _ _

theorem adjustGreen_returned (img : Image) (value : Int) :
    (adjustGreen img value).2 =
      { img with pixels := img.pixels.map (fun pixel =>
          { pixel with g := clamp (toInt32 ((pixel.g.val : Int) + value)) }) } := rfl

theorem scaleRedBlue_returned (img : Image) (redScale blueScale : Int) :
    (scaleRedBlue img redScale blueScale).2 =
      { img with pixels := img.pixels.map (fun pixel =>
          { pixel with
            r := clamp (toInt32 ((pixel.r.val : Int) * redScale)),
            b := clamp (toInt32 ((pixel.b.val : Int) * blueScale)) }) } := rfl

theorem toInt32_id {x : Int} (h0 : -2147483648 ≤ x) (h1 : x ≤ 2147483647) : toInt32 x = x := by
  unfold toInt32
  omega

/-- C13: for every image and every `int` delta such that `green + delta` stays
within the 32-bit range for every pixel, `adjustGreen(img, delta)` has the
width, height and pixel count of `img`, and every pixel has
`green = clamp(green_raw + delta)`, saturated to `[0,255]`, with red and blue
unchanged. -/
theorem adjustGreen_green_only (img : Image) (delta : Int) (hd : -2147483648 ≤ delta)
    (hov : ∀ p ∈ img.pixels, (p.g.val : Int) + delta ≤ 2147483647) :
    (adjustGreen img delta).2.width = img.width ∧
    (adjustGreen img delta).2.height = img.height ∧
    (adjustGreen img delta).2.pixels.length = img.pixels.length ∧
    ∀ (i : Nat) (p : Pixel), img.pixels[i]? = some p →
      ∃ q, (adjustGreen img delta).2.pixels[i]? = some q ∧
        q.g = clamp ((p.g.val : Int) + delta) ∧
        (q.g.val : Int) = max 0 (min 255 ((p.g.val : Int) + delta)) ∧
        q.r = p.r ∧ q.b = p.b := by
  refine ⟨rfl, rfl, ?_, ?_⟩
  · rw [adjustGreen_returned]
    exact List.length_map _ _
  · intro i p hp
    have hg := hov p (List.getElem?_mem hp)
    have e : toInt32 ((p.g.val : Int) + delta) = (p.g.val : Int) + delta :=
      toInt32_id (by omega) hg
    refine ⟨{ p with g := clamp ((p.g.val : Int) + delta) }, ?_, rfl, ?_, rfl, rfl⟩
    · rw [adjustGreen_returned]
      simp only [List.getElem?_map, hp, Option.map_some', e]
    · rw [clamp_val]
      split_ifs <;> omega

/-- Instance of `adjustGreen_green_only` at the 2×1 image `smallImage`, delta
200 (the value the program uses), pixel 0. -/
theorem adjustGreen_green_only_witness :
    ((-2147483648 : Int) ≤ 200 ∧
      (∀ p ∈ smallImage.pixels, (p.g.val : Int) + 200 ≤ 2147483647) ∧
      smallImage.pixels[0]? = some ⟨200, 100, 50⟩) ∧
    ∃ q, (adjustGreen smallImage 200).2.pixels[0]? = some q ∧
      q.g = clamp (((100 : Byte).val : Int) + 200) ∧
      (q.g.val : Int) = max 0 (min 255 (((100 : Byte).val : Int) + 200)) ∧
      q.r = 200 ∧ q.b = 50 :=
  ⟨⟨by decide, by decide, by decide⟩,
    (adjustGreen_green_only smallImage 200 (by decide) (by decide)).2.2.2 0 ⟨200, 100, 50⟩
      (by decide)⟩

theorem mul_scale_range (v : Byte) (s : Int) (h0 : -2147483648 ≤ 255 * s)
    (h1 : 255 * s ≤ 2147483647) :
    -2147483648 ≤ (v.val : Int) * s ∧ (v.val : Int) * s ≤ 2147483647 := by
  have hv := v.isLt
  have hv0 : (0 : Int) ≤ (v.val : Int) := by omega
  have hv1 : (v.val : Int) ≤ 255 := by omega
  by_cases hs : 0 ≤ s
  · have a1 : (v.val : Int) * s ≤ 255 * s := Int.mul_le_mul_of_nonneg_right hv1 hs
    have a2 : 0 ≤ (v.val : Int) * s := Int.mul_nonneg hv0 hs
    omega
  · have a1 : 255 * s ≤ (v.val : Int) * s :=
      Int.mul_le_mul_of_nonpos_right hv1 (by omega)
    have a2 : (v.val : Int) * s ≤ 0 := Int.mul_nonpos_of_nonneg_of_nonpos hv0 (by omega)
    omega

/-- C14: for every image and `int` scales such that `255*scale` stays within the
32-bit range, `scaleRedBlue(img, rScale, bScale)` has the width, height and
pixel count of `img`, and every pixel has `red = clamp(red_raw * rScale)`,
`blue = clamp(blue_raw * bScale)`, each saturated to `[0,255]`, with green
unchanged. -/
theorem scaleRedBlue_red_blue_only (img : Image) (rScale bScale : Int)
    (hr0 : -2147483648 ≤ 255 * rScale) (hr1 : 255 * rScale ≤ 2147483647)
    (hb0 : -2147483648 ≤ 255 * bScale) (hb1 : 255 * bScale ≤ 2147483647) :
    (scaleRedBlue img rScale bScale).2.width = img.width ∧
    (scaleRedBlue img rScale bScale).2.height = img.height ∧
    (scaleRedBlue img rScale bScale).2.pixels.length = img.pixels.length ∧
    ∀ (i : Nat) (p : Pixel), img.pixels[i]? = some p →
      ∃ q, (scaleRedBlue img rScale bScale).2.pixels[i]? = some q ∧
        q.r = clamp ((p.r.val : Int) * rScale) ∧
        (q.r.val : Int) = max 0 (min 255 ((p.r.val : Int) * rScale)) ∧
        q.b = clamp ((p.b.val : Int) * bScale) ∧
        (q.b.val : Int) = max 0 (min 255 ((p.b.val : Int) * bScale)) ∧
        q.g = p.g := by
  refine ⟨rfl, rfl, ?_, ?_⟩
  · rw [scaleRedBlue_returned]
    exact List.length_map _ _
  · intro i p hp
    have er : toInt32 ((p.r.val : Int) * rScale) = (p.r.val : Int) * rScale :=
      toInt32_id (mul_scale_range p.r rScale hr0 hr1).1 (mul_scale_range p.r rScale hr0 hr1).2
    have eb : toInt32 ((p.b.val : Int) * bScale) = (p.b.val : Int) * bScale :=
      toInt32_id (mul_scale_range p.b bScale hb0 hb1).1 (mul_scale_range p.b bScale hb0 hb1).2
    refine ⟨{ p with r := clamp ((p.r.val : Int) * rScale),
                     b := clamp ((p.b.val : Int) * bScale) }, ?_, rfl, ?_, rfl, ?_, rfl⟩
    · rw [scaleRedBlue_returned]
      simp only [List.getElem?_map, hp, Option.map_some', er, eb]
    · rw [clamp_val]
      split_ifs <;> omega
    · rw [clamp_val]
      split_ifs <;> omega

/-- Instance of `scaleRedBlue_red_blue_only` at the 2×1 image `smallImage`,
scales 4 and 0 (the values the program uses), pixel 0. -/
theorem scaleRedBlue_red_blue_only_witness :
    ((-2147483648 : Int) ≤ 255 * 4 ∧ (255 : Int) * 4 ≤ 2147483647 ∧
      (-2147483648 : Int) ≤ 255 * 0 ∧ (255 : Int) * 0 ≤ 2147483647 ∧
      smallImage.pixels[0]? = some ⟨200, 100, 50⟩) ∧
    ∃ q, (scaleRedBlue smallImage 4 0).2.pixels[0]? = some q ∧
      q.r = clamp (((200 : Byte).val : Int) * 4) ∧
      (q.r.val : Int) = max 0 (min 255 (((200 : Byte).val : Int) * 4)) ∧
      q.b = clamp (((50 : Byte).val : Int) * 0) ∧
      (q.b.val : Int) = max 0 (min 255 (((50 : Byte).val : Int) * 0)) ∧
      q.g = 100 :=
  ⟨⟨by decide, by decide, by decide, by decide, by decide⟩,
    (scaleRedBlue_red_blue_only smallImage 4 0 (by decide) (by decide) (by decide)
      (by decide)).2.2.2 0 ⟨200, 100, 50⟩ (by decide)⟩

theorem channelImage_getElem? (img : Image) (c : Char) (hc : c = 'r' ∨ c = 'g' ∨ c = 'b')
    (i : Nat) (p : Pixel) (hp : img.pixels[i]? = some p) :
    (channelImage img c).pixels[i]? =
      some { r := p.channel c, g := p.channel c, b := p.channel c } := by
  unfold channelImage
  simp only [List.getElem?_map, hp, Option.map_some']
  rcases hc with h | h | h <;> subst h <;> simp [Pixel.channel]

/-- C15: for every image and channel `c` among `'r'`, `'g'`, `'b'`, the image
that `writeChannel` hands to the encoder has the dimensions and pixel count of
`img`, every pixel `i` has all three channels equal to channel `c` of pixel `i`
of `img`, and the caller's image is left unchanged. -/
theorem writeChannel_gray (img : Image) (c : Char) (hc : c = 'r' ∨ c = 'g' ∨ c = 'b') :
    writeChannel img c = writeTGA (channelImage img c) ∧
    (channelImage img c).width = img.width ∧ (channelImage img c).height = img.height ∧
    (channelImage img c).pixels.length = img.pixels.length ∧
    (∀ (i : Nat) (p : Pixel), img.pixels[i]? = some p →
      ∃ q, (channelImage img c).pixels[i]? = some q ∧
        q.r = p.channel c ∧ q.g = p.channel c ∧ q.b = p.channel c) ∧
    (writeChannelCall img c).1 = img ∧
    (writeChannelCall img c).2 = writeTGA (channelImage img c) := by
  refine ⟨rfl, rfl, rfl, ?_, ?_, rfl, rfl⟩
  · unfold channelImage
    exact List.length_map _ _
  · intro i p hp
    exact ⟨_, channelImage_getElem? img c hc i p hp, rfl, rfl, rfl⟩

/-- Instance of `writeChannel_gray` at the 2×1 image `smallImage`, channel
`'g'`, pixel 0. -/
theorem writeChannel_gray_witness :
    (('g' : Char) = 'r' ∨ ('g' : Char) = 'g' ∨ ('g' : Char) = 'b') ∧
    smallImage.pixels[0]? = some ⟨200, 100, 50⟩ ∧
    ∃ q, (channelImage smallImage 'g').pixels[0]? = some q ∧
      q.r = 100 ∧ q.g = 100 ∧ q.b = 100 :=
  ⟨by decide, by decide,
    (writeChannel_gray smallImage 'g' (by decide)).2.2.2.2.1 0 ⟨200, 100, 50⟩ (by decide)⟩

/-- C16: for every image and every argument values, after a call of
`adjustGreen` or `scaleRedBlue` the caller's image equals the returned image,
and both hold the adjusted pixels: green replaced by `clamp(green + value)`,
respectively red and blue replaced by `clamp(red * redScale)` and
`clamp(blue * blueScale)`, the sums and products being `int` operations. On the
2×1 image `smallImage` with value 200 these differ from the original pixels. -/
theorem inplace_visible (img : Image) (value redScale blueScale : Int) :
    (adjustGreen img value).1 = (adjustGreen img value).2 ∧
    (adjustGreen img value).1.width = img.width ∧
    (adjustGreen img value).1.height = img.height ∧
    (adjustGreen img value).1.pixels =
      img.pixels.map (fun p => { p with g := clamp (toInt32 ((p.g.val : Int) + value)) }) ∧
    (scaleRedBlue img redScale blueScale).1 = (scaleRedBlue img redScale blueScale).2 ∧
    (scaleRedBlue img redScale blueScale).1.width = img.width ∧
    (scaleRedBlue img redScale blueScale).1.height = img.height ∧
    (scaleRedBlue img redScale blueScale).1.pixels =
      img.pixels.map (fun p =>
        { p with r := clamp (toInt32 ((p.r.val : Int) * redScale)),
                 b := clamp (toInt32 ((p.b.val : Int) * blueScale)) }) ∧
    (adjustGreen smallImage 200).1.pixels = [⟨200, 255, 50⟩, ⟨10, 220, 30⟩] ∧
    (adjustGreen smallImage 200).1 ≠ smallImage ∧
    (scaleRedBlue smallImage 4 0).1.pixels = [⟨255, 100, 0⟩, ⟨40, 20, 0⟩] ∧
    (scaleRedBlue smallImage 4 0).1 ≠ smallImage :=
  ⟨rfl, rfl, rfl, rfl, rfl, rfl, rfl, rfl, by decide, by decide, by decide, by decide⟩

/-- C19: if every input image has pixel length `width*height` and all inputs
share the same width and height, the image returned by each of `multiply`,
`subtract`, `screen`, `overlay`, `combineChannels`, `rotate180`, `adjustGreen`
and `scaleRedBlue` has the width and height of its first argument and exactly
`width*height` pixels. -/
theorem operators_preserve_shape (A B C : Image) (hA : A.WF) (_hB : B.WF) (_hC : C.WF)
    (_hwB : A.width = B.width) (_hhB : A.height = B.height) (_hwC : A.width = C.width)
    (_hhC : A.height = C.height) (value redScale blueScale : Int) :
    (multiply A B).ShapeOf A ∧ (subtract A B).ShapeOf A ∧ (screen A B).ShapeOf A ∧
    (overlay A B).ShapeOf A ∧ (combineChannels A B C).ShapeOf A ∧ (rotate180 A).ShapeOf A ∧
    (adjustGreen A value).2.ShapeOf A ∧ (scaleRedBlue A redScale blueScale).2.ShapeOf A := by
  have hA2 := hA
  unfold Image.WF at hA2
  refine ⟨⟨rfl, rfl, ?_⟩, ⟨rfl, rfl, ?_⟩, ⟨rfl, rfl, ?_⟩, ⟨rfl, rfl, ?_⟩, ⟨rfl, rfl, ?_⟩,
    ⟨rfl, rfl, ?_⟩, ⟨rfl, rfl, ?_⟩, ⟨rfl, rfl, ?_⟩⟩
  · rw [multiply_length]; exact hA2
  · rw [subtract_length]; exact hA2
  · rw [screen_length]; exact hA2
  · rw [overlay_length]; exact hA2
  · rw [combineChannels_length]; exact hA2
  · exact rotate180_WF A hA
  · rw [adjustGreen_returned]
    simp only [List.length_map]
    exact hA2
  · rw [scaleRedBlue_returned]
    simp only [List.length_map]
    exact hA2

/-- Instance of `operators_preserve_shape` at the 2×1 images `smallImage`,
`smallImageB` and `smallWhite`. -/
theorem operators_preserve_shape_witness :
    (smallImage.WF ∧ smallImageB.WF ∧ smallWhite.WF ∧ smallImage.width = smallImageB.width ∧
      smallImage.height = smallImageB.height ∧ smallImage.width = smallWhite.width ∧
      smallImage.height = smallWhite.height) ∧
    (multiply smallImage smallImageB).ShapeOf smallImage ∧
    (combineChannels smallImage smallImageB smallWhite).ShapeOf smallImage ∧
    (adjustGreen smallImage 200).2.ShapeOf smallImage :=
  have h := operators_preserve_shape smallImage smallImageB smallWhite (by decide) (by decide)
    (by decide) (by decide) (by decide) (by decide) (by decide) 200 4 0
  ⟨⟨by decide, by decide, by decide, by decide, by decide, by decide, by decide⟩,
    h.1, h.2.2.2.2.1, h.2.2.2.2.2.2.1⟩

/-! ## Truncated and canonical files -/

theorem filePixel_beyond (file : List Byte) (i : Nat) (h : file.length ≤ 18 + 3 * i) :
    filePixel file i = ⟨0, 0, 0⟩ := by
  unfold filePixel
  rw [getD_of_length_le (by omega), getD_of_length_le (by omega), getD_of_length_le (by omega)]

/-- C17 (as amended): truncated input is not rejected. For every byte sequence
with fewer than 18 bytes, or fewer than `18 + 3*w*h` bytes for the announced
width `w` and height `h` (absent header bytes counting as 0), and `w*h` below
`2^31`, `readTGA` returns an image of width `w`, height `h` and `w*h` pixels
whose channels are the bytes present in the file and 0 where the file has
ended; its last pixel is in every case incomplete or absent in the file. -/
theorem readTGA_truncated (file : List Byte)
    (htrunc : file.length < 18 ∨
      (file.length : Int) < 18 + 3 * (fileWidth file * fileHeight file))
    (hc : fileWidth file * fileHeight file < 2147483648) :
    ∃ img, readTGA file = Except.ok img ∧
      img.width = fileWidth file ∧ img.height = fileHeight file ∧
      (img.pixels.length : Int) = fileWidth file * fileHeight file ∧
      (∀ i : Nat, (i : Int) < fileWidth file * fileHeight file →
        img.pixels[i]? = some (filePixel file i)) ∧
      (∀ i : Nat, file.length ≤ 18 + 3 * i → filePixel file i = ⟨0, 0, 0⟩) ∧
      (∀ i : Nat, (i : Int) + 1 = fileWidth file * fileHeight file →
        file.length < 18 + 3 * i + 3) := by
  have hn : 0 ≤ fileWidth file * fileHeight file :=
    Int.mul_nonneg (fileWidth_range file).1 (fileHeight_range file).1
  refine ⟨_, readTGA_of_small file hc, rfl, rfl, ?_, ?_, filePixel_beyond file, ?_⟩
  · simp only [List.length_map, List.length_range]
    exact Int.toNat_of_nonneg hn
  · intro i hi
    rw [List.getElem?_map, List.getElem?_range (by omega)]
    rfl
  · intro i hi
    rcases htrunc with h | h
    · omega
    · omega

/-- Instance of `readTGA_truncated` at the 19-byte file `truncatedFile`, which
announces a 2×1 image. -/
theorem readTGA_truncated_witness :
    ((truncatedFile.length < 18 ∨
        (truncatedFile.length : Int) < 18 + 3 * (fileWidth truncatedFile * fileHeight truncatedFile)) ∧
      fileWidth truncatedFile * fileHeight truncatedFile < 2147483648) ∧
    ∃ img, readTGA truncatedFile = Except.ok img ∧ img.width = 2 ∧ img.height = 1 ∧
      (img.pixels.length : Int) = 2 :=
  have h := readTGA_truncated truncatedFile (by decide) (by decide)
  ⟨⟨by decide, by decide⟩, h.elim fun img hi => ⟨img, hi.1, hi.2.1, hi.2.2.1, hi.2.2.2.1⟩⟩

/-- C17 refuted as stated: the 3-byte file `stubFile` has fewer than 18 bytes and
the 19-byte file `truncatedFile` announces 2×1 pixels but holds one pixel byte
instead of six, yet `readTGA` returns an image for both: the empty 0×0 image,
and a 2×1 image padded with zeros. -/
theorem readTGA_accepts_truncated :
    stubFile.length < 18 ∧
    readTGA stubFile = Except.ok { width := 0, height := 0, pixels := [] } ∧
    (truncatedFile.length : Int) <
      18 + 3 * (fileWidth truncatedFile * fileHeight truncatedFile) ∧
    readTGA truncatedFile =
      Except.ok { width := 2, height := 1, pixels := [⟨0, 0, 9⟩, ⟨0, 0, 0⟩] } := by
  refine ⟨by decide, ?_, by decide, ?_⟩
  · rw [readTGA_of_small stubFile (by decide)]
    rfl
  · rw [readTGA_of_small truncatedFile (by decide)]
    rfl

theorem bigFile_fileWidth : fileWidth bigFile = 65535 := by
  unfold bigFile
  rw [fileWidth_append _ _ (by decide)]
  decide

theorem bigFile_fileHeight : fileHeight bigFile = 65535 := by
  unfold bigFile
  rw [fileHeight_append _ _ (by decide)]
  decide

theorem bigFile_length : bigFile.length = 18 + 12884508675 := by
  unfold bigFile
  rw [List.length_append, List.length_replicate]
  rfl

theorem bigFile_header (k : Nat) (hk : k < 18) : bigFile[k]? = bigHeader[k]? := by
  unfold bigFile
  exact List.getElem?_append_left (by simpa [bigHeader] using hk)

theorem le16_split (lo hi : Byte) :
    (((lo.val : Int) + 256 * (hi.val : Int)) % 256 = (lo.val : Int)) ∧
    (((lo.val : Int) + 256 * (hi.val : Int)) / 256 = (hi.val : Int)) := by
  have h1 := lo.isLt
  have h2 := hi.isLt
  constructor <;> omega

theorem byte_eq_of_val {a b : Byte} (h : (a.val : Int) = (b.val : Int)) : a = b := by
  apply Fin.ext
  omega

/-- The reverse round trip below `2^31` pixels: for every byte sequence whose
bytes 0..11 and 17 are 0, whose byte 16 is 24, whose length is exactly
`18 + 3*w*h` for the little-endian width `w` and height `h` it announces, and
with `w*h` below `2^31`, encoding the image obtained by decoding it reproduces
the byte sequence exactly. -/
theorem writeTGA_readTGA (file : List Byte) (h0 : ∀ k : Nat, k < 12 → file[k]? = some 0)
    (h17 : file[17]? = some 0) (h16 : file[16]? = some 24)
    (hlen : (file.length : Int) = 18 + 3 * (fileWidth file * fileHeight file))
    (hc : fileWidth file * fileHeight file < 2147483648) :
    ∃ img, readTGA file = Except.ok img ∧ writeTGA img = file := by
  have hn : 0 ≤ fileWidth file * fileHeight file :=
    Int.mul_nonneg (fileWidth_range file).1 (fileHeight_range file).1
  have hW := fileWidth_range file
  have hH := fileHeight_range file
  refine ⟨_, readTGA_of_small file hc, ?_⟩
  set n : Nat := (fileWidth file * fileHeight file).toNat with hn_def
  have hnn : (n : Int) = fileWidth file * fileHeight file := Int.toNat_of_nonneg hn
  have hL : file.length = 18 + 3 * n := by omega
  have hpx : ∀ i : Nat, ((List.range n).map (filePixel file))[i]? =
      if i < n then some (filePixel file i) else none := by
    intro i
    rw [List.getElem?_map]
    split_ifs with h
    · rw [List.getElem?_range h]; rfl
    · rw [List.getElem?_eq_none (by simpa using h)]; rfl
  apply List.ext_getElem?
  intro k
  by_cases hk18 : k < 18
  · rw [writeTGA_header _ k hk18]
    have hk : file[k]? = some (file.getD k 0) := getElem?_eq_some_getD (by omega)
    by_cases hk12 : k < 12
    · rw [h0 k hk12]
      interval_cases k <;> rfl
    · have e12 : toUChar (Int.land (fileWidth file) 0xFF) = file.getD 12 0 :=
        byte_eq_of_val (by rw [lowByte_val hW.1]; exact (le16_split _ _).1)
      have e13 : toUChar (Int.land (Int.shiftRight (fileWidth file) 8) 0xFF) = file.getD 13 0 :=
        byte_eq_of_val (by rw [highByte_val hW.1 hW.2]; exact (le16_split _ _).2)
      have e14 : toUChar (Int.land (fileHeight file) 0xFF) = file.getD 14 0 :=
        byte_eq_of_val (by rw [lowByte_val hH.1]; exact (le16_split _ _).1)
      have e15 : toUChar (Int.land (Int.shiftRight (fileHeight file) 8) 0xFF)
          = file.getD 15 0 :=
        byte_eq_of_val (by rw [highByte_val hH.1 hH.2]; exact (le16_split _ _).2)
      simp only [e12, e13, e14, e15]
      have hk' : 12 ≤ k := by omega
      interval_cases k
      · exact (getElem?_eq_some_getD (by omega)).symm
      · exact (getElem?_eq_some_getD (by omega)).symm
      · exact (getElem?_eq_some_getD (by omega)).symm
      · exact (getElem?_eq_some_getD (by omega)).symm
      · rw [h16]; rfl
      · rw [h17]; rfl
  · obtain ⟨m, rfl⟩ : ∃ m, k = 18 + m := ⟨k - 18, by omega⟩
    rw [writeTGA_body]
    simp only []
    have hb := bgr_getElem? ((List.range n).map (filePixel file)) (m / 3)
    rw [hpx] at hb
    by_cases hm : m < 3 * n
    · have hi : m / 3 < n := by omega
      rw [if_pos hi] at hb
      have hfile : file[18 + m]? = some (file.getD (18 + m) 0) :=
        getElem?_eq_some_getD (by omega)
      rw [hfile]
      have hcases : m = 3 * (m / 3) ∨ m = 3 * (m / 3) + 1 ∨ m = 3 * (m / 3) + 2 := by omega
      rcases hcases with e | e | e
      · rw [e, hb.1]
        simp only [Option.map_some', filePixel]
      · rw [e, hb.2.1]
        simp only [Option.map_some', filePixel]
        rw [Nat.add_assoc]
      · rw [e, hb.2.2]
        simp only [Option.map_some', filePixel]
        rw [Nat.add_assoc]
    · rw [List.getElem?_eq_none (by rw [bgr_length, List.length_map, List.length_range]; omega),
        List.getElem?_eq_none (by omega)]

/-- Instance of `writeTGA_readTGA` at the 24-byte file `canonicalFile`. -/
theorem writeTGA_readTGA_witness :
    ((∀ k : Nat, k < 12 → canonicalFile[k]? = some 0) ∧ canonicalFile[17]? = some 0 ∧
      canonicalFile[16]? = some 24 ∧
      (canonicalFile.length : Int) =
        18 + 3 * (fileWidth canonicalFile * fileHeight canonicalFile) ∧
      fileWidth canonicalFile * fileHeight canonicalFile < 2147483648) ∧
    ∃ img, readTGA canonicalFile = Except.ok img ∧ writeTGA img = canonicalFile :=
  ⟨⟨by decide, by decide, by decide, by decide, by decide⟩,
    writeTGA_readTGA canonicalFile (by decide) (by decide) (by decide) (by decide) (by decide)⟩

/-- C20, where the code breaks it: `bigFile` has bytes 0..11 and 17 equal to 0,
byte 16 equal to 24 and exactly `18 + 3*65535*65535` bytes, yet decoding it ends
in the exception `std::length_error` (the `int` product `width*height` of
`readTGA` has overflowed), so no image is obtained and nothing is encoded. -/
theorem writeTGA_readTGA_bigFile :
    (∀ k : Nat, k < 12 → bigFile[k]? = some 0) ∧ bigFile[17]? = some 0 ∧
    bigFile[16]? = some 24 ∧
    (bigFile.length : Int) = 18 + 3 * (fileWidth bigFile * fileHeight bigFile) ∧
    readTGA bigFile = Except.error ReadError.lengthError ∧
    ¬ ∃ img, readTGA bigFile = Except.ok img ∧ writeTGA img = bigFile := by
  have herr : readTGA bigFile = Except.error ReadError.lengthError := by
    apply readTGA_of_big
    rw [bigFile_fileWidth, bigFile_fileHeight]
    norm_num
  refine ⟨?_, ?_, ?_, ?_, herr, ?_⟩
  · intro k hk
    rw [bigFile_header k (by omega)]
    interval_cases k <;> rfl
  · rw [bigFile_header 17 (by norm_num)]
    rfl
  · rw [bigFile_header 16 (by norm_num)]
    rfl
  · rw [bigFile_length, bigFile_fileWidth, bigFile_fileHeight]
    norm_num
  · rintro ⟨img, h, _⟩
    rw [herr] at h
    cases h

/-! ## The images a run of the program holds -/

/-- Every image `readTGA` returns has width and height in `[0,65535]`, has
`width*height` pixels, and that count is below `2^31`. -/
theorem readTGA_held (file : List Byte) (img : Image) (h : readTGA file = Except.ok img) :
    img.Held ∧ 0 ≤ img.width ∧ img.width ≤ 65535 ∧ 0 ≤ img.height ∧ img.height ≤ 65535 := by
  have hW := fileWidth_range file
  have hH := fileHeight_range file
  have hn : 0 ≤ fileWidth file * fileHeight file := Int.mul_nonneg hW.1 hH.1
  have hlt : fileWidth file * fileHeight file ≤ 65535 * 65535 :=
    Int.mul_le_mul hW.2 hH.2 hH.1 (by norm_num)
  rw [readTGA_eq] at h
  split_ifs at h with hneg
  have hsmall : fileWidth file * fileHeight file < 2147483648 := by
    unfold toInt32 at hneg
    omega
  rw [toInt32_of_range hn hsmall] at h
  rw [← Except.ok.inj h]
  refine ⟨⟨?_, hsmall⟩, hW.1, hW.2, hH.1, hH.2⟩
  unfold Image.WF
  simp only [List.length_map, List.length_range]
  exact Int.toNat_of_nonneg hn

/-- An image with width and height in `[0,65535]` satisfies the invariant
exactly when some file decodes to it. -/
theorem held_iff_decoded (img : Image) :
    (img.Held ∧ 0 ≤ img.width ∧ img.width ≤ 65535 ∧ 0 ≤ img.height ∧ img.height ≤ 65535) ↔
      ∃ file, readTGA file = Except.ok img := by
  constructor
  · rintro ⟨⟨hwf, hc⟩, hw0, hw1, hh0, hh1⟩
    exact ⟨writeTGA img, readTGA_writeTGA img hw0 hw1 hh0 hh1 hwf hc⟩
  · rintro ⟨file, h⟩
    exact readTGA_held file img h

theorem held_of_same_shape (R A : Image) (hA : A.Held) (hw : R.width = A.width)
    (hh : R.height = A.height) (hl : R.pixels.length = A.pixels.length) : R.Held := by
  obtain ⟨hwf, hc⟩ := hA
  unfold Image.WF at hwf
  unfold Image.Held Image.WF
  rw [hw, hh, hl]
  exact ⟨hwf, hc⟩

/-- Every operator turns images that satisfy the invariant into an image that
satisfies it. -/
theorem operators_preserve_held (A B C : Image) (hA : A.Held)
    (value redScale blueScale : Int) :
    (multiply A B).Held ∧ (subtract A B).Held ∧ (screen A B).Held ∧ (overlay A B).Held ∧
    (combineChannels A B C).Held ∧ (rotate180 A).Held ∧ (adjustGreen A value).2.Held ∧
    (scaleRedBlue A redScale blueScale).2.Held ∧ (channelImage A 'r').Held :=
  ⟨held_of_same_shape _ A hA rfl rfl (multiply_length A B),
    held_of_same_shape _ A hA rfl rfl (subtract_length A B),
    held_of_same_shape _ A hA rfl rfl (screen_length A B),
    held_of_same_shape _ A hA rfl rfl (overlay_length A B),
    held_of_same_shape _ A hA rfl rfl (combineChannels_length A B C),
    held_of_same_shape _ A hA rfl rfl (forIndex_length _ _ _),
    held_of_same_shape _ A hA rfl rfl (by rw [adjustGreen_returned]; exact List.length_map _ _),
    held_of_same_shape _ A hA rfl rfl (by rw [scaleRedBlue_returned]; exact List.length_map _ _),
    held_of_same_shape _ A hA rfl rfl (by unfold channelImage; exact List.length_map _ _)⟩

end Tga
